import Mathlib

/-!
# Verification development for the lbcd snapshot-aware immutable treap

This file is a shallow embedding, in Lean 4, of the treap module of the
repository.  The repository carries two copies of the module:

* `database/internal/treap/immutable.go` — the "treap package" variant, whose
  mutable operations take a `bumpGen` parameter (0 for `PutM`/`DeleteM`) and
  whose `SnapRecord` holds only `prev`/`next`;
* the copy embedded in `rpcclient/examples/lbcdblocknotify/adapter.go` — the
  "adapter" variant, whose `put`/`del` always bump the generation and whose
  `SnapRecord` additionally carries a generation stamp, a back-pointer cell
  `rp`, and a deferred-recycle chain.

The tree algorithms (`put`, `del`, `get`, traversal) of the two variants are
textually identical except that the treap-package variant writes
`t.generation+bumpGen` where the adapter variant writes `t.generation+1`.
We therefore embed a single `put`/`del` parameterised by `bumpGen`; the
adapter variant is the instance `bumpGen = 1`.

Pointer identity is modelled by stamping every allocated node with a unique
address drawn from an allocation counter (`ctr`), threaded through every
operation.  This is faithful because `put`/`del` never write to a node that
is reachable from any pre-existing handle: every mutation in the Go source
targets either a node freshly obtained from `getTreapNode` (clones, the new
node) or container-local stacks.  Two nodes are "pointer-identical" exactly
when they are equal as stamped values.

The node pool (`getTreapNode`/`putTreapNode`), the parent stack and the
`recycleGeneration` sentinel live in files of the treap package that are not
part of `src/` (only their callers are); those are modelled from the spec and
are marked as such.
-/

namespace LbcdTreap

/-- Byte strings (`[]byte` contents); bytes are modelled as naturals. -/
abbrev Bytes := List Nat

/-- Embeds Go `bytes.Compare`: lexicographic comparison, a strict prefix is
smaller. -/
def bytesCompare : Bytes → Bytes → Ordering
  | [], [] => .eq
  | [], _ :: _ => .lt
  | _ :: _, [] => .gt
  | a :: as, b :: bs =>
      if a < b then .lt else if b < a then .gt else bytesCompare as bs

/-- A treap node (`treapNode`).  `addr` is the allocation stamp standing for
the node's pointer identity; the remaining fields are `key`, `value`,
`priority`, `generation`, `left`, `right` exactly as in the source.  A Go
`[]byte` value can be `nil`, so `value` is an `Option Bytes` with `none`
standing for the nil slice. -/
inductive Tree where
  | nil : Tree
  | node (addr : Nat) (key : Bytes) (value : Option Bytes) (priority : Nat)
      (generation : Int) (left right : Tree) : Tree
deriving Repr, DecidableEq

namespace Tree

/-- Number of nodes, used for termination measures. -/
def size : Tree → Nat
  | .nil => 0
  | .node _ _ _ _ _ l r => 1 + l.size + r.size

end Tree

/-- Modelled from the spec (§3): `totalSize` adds a fixed per-node overhead to
the key and value lengths.  The constant lives in a treap-package file that is
not under `src/`; no claim depends on its value. -/
def nodeFieldsSize : Nat := 24

/-- Size contribution of a node with the given key and value
(`nodeSize`; `len` of a nil slice is 0).  The sizing helper itself is in a
treap-package file missing from `src/`; modelled from the spec's
`fixed_overhead + len(key) + len(value)`. -/
def nodeSizeKV (key : Bytes) (value : Option Bytes) : Nat :=
  nodeFieldsSize + key.length + (match value with | none => 0 | some bs => bs.length)

def nodeSize : Tree → Nat
  | .nil => nodeFieldsSize
  | .node _ k v _ _ _ _ => nodeSizeKV k v

/-- `totalSize` is a Go `uint64`; arithmetic is mod `2^64`. -/
def two64 : Nat := 2 ^ 64

def u64add (a b : Nat) : Nat := (a + b) % two64

def u64sub (a b : Nat) : Nat := ((a % two64) + two64 - (b % two64)) % two64

/-- Modelled from the spec (§4.1): the pool's `acquire` returns a node with
the given fields, null children and a fresh identity (`getTreapNode` lives in
a treap-package file not under `src/`).  The fresh identity is the current
allocation counter. -/
def getTreapNode (key : Bytes) (value : Option Bytes) (priority : Nat)
    (generation : Int) (ctr : Nat) : Tree × Nat :=
  (.node ctr key value priority generation .nil .nil, ctr + 1)

/-- Embeds `cloneTreapNode` (adapter.go lines 34-39 = immutable.go lines
14-19): a shallow copy stamped with `node.generation+1`, sharing both
children.  The `nil` case cannot occur in the source (it would dereference a
nil pointer). -/
def cloneTreapNode : Tree → Nat → Tree × Nat
  | .node _ k v p g l r, ctr => (.node ctr k v p (g + 1) l r, ctr + 1)
  | .nil, ctr => (.nil, ctr)

/-- The user-facing container (`Immutable`).  `snap` is the link into the
snapshot registry: in the adapter variant a `**SnapRecord`, modelled as an
optional cell index; the treap-package variant's `*SnapRecord` is also just
carried through unchanged by the tree operations, so one field serves both
embeddings. -/
structure Immutable where
  root : Tree
  count : Int
  totalSize : Nat
  generation : Int
  snap : Option Nat
deriving Repr, DecidableEq

/-- `NewImmutable()` returns the zero container. -/
def NewImmutable : Immutable :=
  { root := .nil, count := 0, totalSize := 0, generation := 0, snap := none }

def Immutable.Len (t : Immutable) : Int := t.count

def Immutable.Size (t : Immutable) : Nat := t.totalSize

/-- Embeds the `get` loop: descend branching on `bytesCompare`, returning the
node on equality. -/
def getNode : Tree → Bytes → Option Tree
  | .nil, _ => none
  | .node a k v p g l r, key =>
      match bytesCompare key k with
      | .lt => getNode l key
      | .gt => getNode r key
      | .eq => some (.node a k v p g l r)

/-- `Has` returns whether the key exists. -/
def Immutable.Has (t : Immutable) (key : Bytes) : Bool :=
  (getNode t.root key).isSome

/-- `Get` returns `node.value` when the key exists and the nil slice (`none`)
otherwise.  Note the collapse: a stored nil value would be indistinguishable
from absence, which is why `put` normalises nil values. -/
def Immutable.Get (t : Immutable) (key : Bytes) : Option Bytes :=
  match getNode t.root key with
  | some (.node _ _ v _ _ _ _) => v
  | some .nil => none
  | none => none

/-- One cloned ancestor on the modified path, with a hole where the search
continued: the clone's fields plus the child that stayed shared (`other`) and
the side of the hole (`dir = true` means the search went left).  This is the
functional image of a `parents` stack entry: in the source the clone is
linked under its parent at clone time and its on-path child pointer is
overwritten later; here the frame is closed by `Frame.fill`. -/
structure Frame where
  addr : Nat
  key : Bytes
  value : Option Bytes
  priority : Nat
  generation : Int
  other : Tree
  dir : Bool
deriving Repr, DecidableEq

/-- Close a frame: put subtree `s` into the hole. -/
def Frame.fill (f : Frame) (s : Tree) : Tree :=
  if f.dir then .node f.addr f.key f.value f.priority f.generation s f.other
  else .node f.addr f.key f.value f.priority f.generation f.other s

/-- Close all frames, deepest first.  This realises the links that the source
already created during the descent (`oldParent.left = nodeCopy` etc.). -/
def reattach : List Frame → Tree → Tree
  | [], z => z
  | f :: rest, z => reattach rest (f.fill z)

/-- Result of the descent loop of `put`: either the key was found (the
deepest clone `z` has its value overwritten) or a nil child was reached.
`olds` is the `oldParents` stack in push order (root first); `ctr` the
allocation counter after the clones. -/
inductive PutWalk where
  | found (frames : List Frame) (z : Tree) (oldLen : Nat) (olds : List Tree) (ctr : Nat)
  | missing (frames : List Frame) (olds : List Tree) (ctr : Nat)
deriving Repr

/-- Embeds the descent loop of `put` (adapter.go lines 159-193): push the
original on `oldParents`, clone it (consuming a fresh address, generation
bumped by one as in `cloneTreapNode`), record the clone as a frame with the
hole on the comparison side; on equality overwrite the clone's value. -/
def putWalk (key : Bytes) (v : Option Bytes) :
    Tree → List Frame → List Tree → Nat → PutWalk
  | .nil, frames, olds, ctr => .missing frames olds ctr
  | .node a k val p g l r, frames, olds, ctr =>
      match bytesCompare key k with
      | .lt =>
          putWalk key v l
            ({ addr := ctr, key := k, value := val, priority := p,
               generation := g + 1, other := r, dir := true } :: frames)
            (olds ++ [.node a k val p g l r]) (ctr + 1)
      | .gt =>
          putWalk key v r
            ({ addr := ctr, key := k, value := val, priority := p,
               generation := g + 1, other := l, dir := false } :: frames)
            (olds ++ [.node a k val p g l r]) (ctr + 1)
      | .eq =>
          .found frames (.node ctr k v p (g + 1) l r)
            (match val with | none => 0 | some bs => bs.length)
            (olds ++ [.node a k val p g l r]) (ctr + 1)

/-- Embeds the heap fix-up loop of `put` (adapter.go lines 204-234): while
the new node's priority is strictly below its parent's, rotate it above the
parent; on the first parent with priority ≤ the node's, stop and close the
remaining frames (their links were already realised during the descent). -/
def fixup : List Frame → Tree → Tree
  | [], z => z
  | f :: rest, z =>
      match z with
      | .nil => reattach (f :: rest) .nil
      | .node za zk zv zp zg zl zr =>
          if zp ≥ f.priority then reattach (f :: rest) (.node za zk zv zp zg zl zr)
          else if f.dir then
            -- the node is the left child: right rotation
            -- (parent.left = node.right; node.right = parent)
            fixup rest (.node za zk zv zp zg zl
              (.node f.addr f.key f.value f.priority f.generation zr f.other))
          else
            -- left rotation (parent.right = node.left; node.left = parent)
            fixup rest (.node za zk zv zp zg
              (.node f.addr f.key f.value f.priority f.generation f.other zl) zr)

/-- Embeds `put` (immutable.go lines 114-217; adapter.go lines 134-237 is the
instance `bumpGen = 1`).  `prio` stands for the `rand.Int()` drawn for a
fresh node; `ctr` is the allocation counter.  Returns the new container, the
`oldParents` stack (push order) and the next counter. -/
def put (t : Immutable) (key : Bytes) (value : Option Bytes) (prio : Nat)
    (bumpGen : Int) (ctr : Nat) : Immutable × List Tree × Nat :=
  -- nil values are normalised to the empty (non-nil) slice
  -- (`value.getD []` is `value` when present and the empty slice when nil)
  let v : Option Bytes := some (value.getD [])
  match t.root with
  | .nil =>
      let (root, ctr') := getTreapNode key v prio (t.generation + bumpGen) ctr
      ({ root := root, count := 1, totalSize := u64add 0 (nodeSize root),
         generation := t.generation + bumpGen, snap := t.snap }, [], ctr')
  | .node a0 k0 v0 p0 g0 l0 r0 =>
      match putWalk key v (.node a0 k0 v0 p0 g0 l0 r0) [] [] ctr with
      | .found frames z oldLen olds ctr' =>
          ({ root := reattach frames z, count := t.count,
             totalSize := u64add (u64sub t.totalSize oldLen)
               (match v with | none => 0 | some bs => bs.length),
             generation := t.generation + bumpGen, snap := t.snap }, olds, ctr')
      | .missing frames olds ctr' =>
          let (z, ctr'') := getTreapNode key v prio (t.generation + bumpGen) ctr'
          ({ root := fixup frames z, count := t.count + 1,
             totalSize := u64add t.totalSize (nodeSize z),
             generation := t.generation + bumpGen, snap := t.snap }, olds, ctr'')

/-- `Put`, the immutable variant: `put` with the generation bumped. -/
def Immutable.Put (t : Immutable) (key : Bytes) (value : Option Bytes)
    (prio : Nat) (ctr : Nat) : Immutable × Nat :=
  let (tp, _, ctr') := put t key value prio 1 ctr
  (tp, ctr')

/-- Embeds the descent loop of `del` (adapter.go lines 293-311): collect the
visited nodes (with the side the search took) until the key is found; `none`
when the key is absent. -/
def delWalk (key : Bytes) : Tree → List (Tree × Bool) →
    Option (List (Tree × Bool) × Tree)
  | .nil, _ => none
  | .node a k v p g l r, anc =>
      match bytesCompare key k with
      | .lt => delWalk key l (anc ++ [(.node a k v p g l r, true)])
      | .gt => delWalk key r (anc ++ [(.node a k v p g l r, false)])
      | .eq => some (anc, .node a k v p g l r)

/-- Embeds the path-cloning loop of `del` (adapter.go lines 329-341): clone
the ancestors root-most first, each clone linked under the previous one;
returned as frames, deepest first, together with the next counter. -/
def delFrames : List (Tree × Bool) → Nat → List Frame → List Frame × Nat
  | [], ctr, acc => (acc, ctr)
  | (.node _ k v p g l r, d) :: rest, ctr, acc =>
      delFrames rest (ctr + 1)
        ({ addr := ctr, key := k, value := v, priority := p, generation := g + 1,
           other := if d then r else l, dir := d } :: acc)
  | (.nil, _) :: rest, ctr, acc => delFrames rest ctr acc

/-- Embeds the sink loop of `del` (adapter.go lines 345-401) as a recursion
on the children of the (cloned) node being deleted: choose a child — the
right one when the left is nil, the left one when the right is nil, otherwise
the left one exactly when `left.priority >= right.priority` — clone it, and
rotate it above the node; when both children are nil the node is a leaf and
is detached (the hole is filled with nil). -/
def sinkBuildF : Nat → Tree → Tree → Nat → Tree × Nat
  | _, .nil, .nil, ctr => (.nil, ctr)
  | 0, _, _, ctr => (.nil, ctr)
  | fuel + 1, .nil, .node _ k v p g rl rr, ctr =>
      -- child = right; left rotation: child.left = delNode, delNode.right = child.left
      let (sub, ctr') := sinkBuildF fuel .nil rl (ctr + 1)
      (.node ctr k v p (g + 1) sub rr, ctr')
  | fuel + 1, .node _ k v p g ll lr, .nil, ctr =>
      -- child = left; right rotation: child.right = delNode, delNode.left = child.right
      let (sub, ctr') := sinkBuildF fuel lr .nil (ctr + 1)
      (.node ctr k v p (g + 1) ll sub, ctr')
  | fuel + 1, .node la lk lv lp lg ll lr, .node ra rk rv rp_ rg rl rr, ctr =>
      if lp ≥ rp_ then
        let (sub, ctr') := sinkBuildF fuel lr (.node ra rk rv rp_ rg rl rr) (ctr + 1)
        (.node ctr lk lv lp (lg + 1) ll sub, ctr')
      else
        let (sub, ctr') := sinkBuildF fuel (.node la lk lv lp lg ll lr) rl (ctr + 1)
        (.node ctr rk rv rp_ (rg + 1) sub rr, ctr')

/-- The sink loop with its exact iteration bound: every step drops
`l.size + r.size` by at least one, so with fuel `l.size + r.size` the fuel
can reach 0 only when both children are already nil, where the loop exits
and the leaf is detached (nil result) anyway.  The explicit fuel keeps the
recursion structural and hence kernel-reducible. -/
def sinkBuild (l r : Tree) (ctr : Nat) : Tree × Nat :=
  sinkBuildF (l.size + r.size) l r ctr

/-- Embeds `del` (immutable.go lines 262-378; adapter.go lines 288-404 is the
instance `bumpGen = 1`).  Returns the new container (the original container
itself when the key is absent), the `oldParents` stack and the next
counter. -/
def del (t : Immutable) (key : Bytes) (bumpGen : Int) (ctr : Nat) :
    Immutable × List Tree × Nat :=
  match delWalk key t.root [] with
  | none => (t, [], ctr)
  | some (anc, delNode) =>
      let olds := anc.map Prod.fst ++ [delNode]
      match anc, delNode with
      | [], .node _ _ _ _ _ .nil .nil =>
          -- deleting the only node: root becomes nil
          ({ root := .nil, count := 0, totalSize := 0,
             generation := t.generation + bumpGen, snap := t.snap }, olds, ctr)
      | _, _ =>
          match delNode with
          | .node _ dk dv dp _ dl dr =>
              let (frames, ctr1) := delFrames anc ctr []
              -- the node to delete is cloned as well (consuming an address);
              -- its clone carries the original children, which the sink
              -- loop then merges
              let (sub, ctr2) := sinkBuild dl dr (ctr1 + 1)
              ({ root := reattach frames sub, count := t.count - 1,
                 totalSize := u64sub t.totalSize (nodeSizeKV dk dv),
                 generation := t.generation + bumpGen, snap := t.snap }, olds, ctr2)
          | .nil => (t, [], ctr)

/-- `Delete`, the immutable variant: `del` with the generation bumped. -/
def Immutable.Delete (t : Immutable) (key : Bytes) (ctr : Nat) :
    Immutable × Nat :=
  let (tp, _, ctr') := del t key 1 ctr
  (tp, ctr')

/-! ## The snapshot registry (adapter variant, adapter.go lines 482-618)

`SnapRecord` holds a generation stamp, a back-pointer `rp` to the anchor cell
it was installed in, doubly-linked-list links, and the deferred-recycle
chain.  Anchor cells (`**SnapRecord` targets) and records are mutable heap
objects; we model them as entries of two growable arrays inside a registry
state, with indices standing for pointers.  The state also carries the node
allocation counter and two pieces of ghost instrumentation that the spec's
test-property section asks for: the log of `putTreapNode` calls (address and
the generation stamp the node carried when it was handed over for recycling)
and the set of released records. -/

/-- Modelled from the spec (§3): the `RECYCLE_DEFERRED` sentinel is a
distinct negative generation; its concrete value lives in a treap-package
file not under `src/` and no claim depends on it. -/
def recycleGeneration : Int := -1

/-- A node sitting on a deferred-recycle chain.  The source overwrites the
node's generation with `recycleGeneration` and threads the chain through the
`next` field; `handGen` is ghost instrumentation recording the generation the
node carried when `PutM`/`DeleteM` abandoned it. -/
structure DefNode where
  addr : Nat
  generation : Int
  handGen : Int
deriving Repr, DecidableEq

/-- A snapshot record (adapter.go lines 485-491). -/
structure SnapRecord where
  generation : Int
  rp : Nat
  prev : Option Nat
  next : Option Nat
  recycle : List DefNode
deriving Repr, DecidableEq

instance : Inhabited SnapRecord :=
  ⟨{ generation := 0, rp := 0, prev := none, next := none, recycle := [] }⟩

/-- The registry state: anchor cells, records, the node-allocation counter,
and the ghost pool log / released set. -/
structure Sys where
  cells : List (Option Nat)
  recs : List SnapRecord
  ctr : Nat
  pool : List (Nat × Int)
  released : List Nat
deriving Repr, DecidableEq

def Sys.empty : Sys := { cells := [], recs := [], ctr := 0, pool := [], released := [] }

/-- Dereference an anchor cell (`*rp`). -/
def Sys.cell (s : Sys) (c : Nat) : Option Nat := s.cells.getD c none

/-- Dereference a record pointer. -/
def Sys.recAt (s : Sys) (r : Nat) : SnapRecord := s.recs.getD r default

def Sys.setCell (s : Sys) (c : Nat) (v : Option Nat) : Sys :=
  { s with cells := s.cells.set c v }

def Sys.updRec (s : Sys) (r : Nat) (f : SnapRecord → SnapRecord) : Sys :=
  { s with recs := s.recs.set r (f (s.recAt r)) }

/-- Modelled from the spec (§4.1): `putTreapNode` returns a node to the pool
(scrubbing its pointers); it lives in a treap-package file not under `src/`.
For the claims only the release event matters, so the model appends it to the
ghost pool log: the node's address together with the generation recorded for
it (`handGen` for chained nodes, the current stamp otherwise). -/
def Sys.poolPut (s : Sys) (addr : Nat) (gen : Int) : Sys :=
  { s with pool := s.pool ++ [(addr, gen)] }

/-- Embeds `Snapshot` (adapter.go lines 496-521): read the container's anchor
cell, create a fresh cell and a record stamped with the container's
generation, link the record after the anchor record (updating only the
predecessor's `next`), and point the container's `snap` at the fresh cell.
Returns the updated container, the new record's index and the new state. -/
def Snapshot (t : Immutable) (s : Sys) : Immutable × Nat × Sys :=
  let rp := t.snap
  let prev : Option Nat := match rp with | some c => s.cell c | none => none
  let next : Option Nat := match prev with | some r => (s.recAt r).next | none => none
  let p := s.cells.length
  let rid := s.recs.length
  let s :=
    { s with
      cells := s.cells ++ [some rid]
      recs := s.recs ++
        [{ generation := t.generation, rp := p, prev := prev, next := next,
           recycle := [] }] }
  let t := { t with snap := some p }
  let s :=
    match prev with
    | some r0 => s.updRec r0 (fun rc => { rc with next := some rid })
    | none => s
  (t, rid, s)

/-- Embeds `SnapRecord.Release` (adapter.go lines 524-545): clear the
record's own anchor cell, unlink the record (repointing the cell at a
neighbour when one exists), then flush the deferred-recycle chain to the
pool.  The record index is added to the ghost released set. -/
def Release (rid : Nat) (s : Sys) : Sys :=
  -- *(r.rp) = nil
  let s1 := s.setCell (s.recAt rid).rp none
  -- if r.next != nil { r.next.prev = r.prev; *(r.rp) = r.next }
  let s2 :=
    match (s1.recAt rid).next with
    | some n =>
        let s' := s1.updRec n (fun rc => { rc with prev := (s1.recAt rid).prev })
        s'.setCell (s'.recAt rid).rp (some n)
    | none => s1
  -- if r.prev != nil { r.prev.next = r.next; *(r.rp) = r.prev }
  let s3 :=
    match (s2.recAt rid).prev with
    | some pv =>
        let s' := s2.updRec pv (fun rc => { rc with next := (s2.recAt rid).next })
        s'.setCell (s'.recAt rid).rp (some pv)
    | none => s2
  -- flush the deferred-recycle chain
  let s4 := (s3.recAt rid).recycle.foldl (fun st d => st.poolPut d.addr d.handGen) s3
  { s4 with released := s4.released ++ [rid] }

/-- One step of the counting loops of `snapCount` (adapter.go lines 560-583):
count the record and update the running `maxSnap`/`minSnap` (strict
comparisons, first counted record seeds both). -/
def tallyRec (s : Sys) (h : Nat) :
    Nat × Option Nat × Option Nat → Nat × Option Nat × Option Nat
  | (c, maxS, minS) =>
      let maxS := match maxS with
        | none => some h
        | some m => if (s.recAt m).generation < (s.recAt h).generation then some h else some m
      let minS := match minS with
        | none => some h
        | some m => if (s.recAt m).generation > (s.recAt h).generation then some h else some m
      (c + 1, maxS, minS)

/-- The backward loop of `snapCount`: follow `prev` from `h`, skipping the
excluded record.  The source assumes the list is acyclic and would loop
forever otherwise; the model carries fuel exceeding any acyclic chain
length. -/
def snapWalk (s : Sys) (excluded : Option Nat) (useNext : Bool) :
    Option Nat → Nat → Nat × Option Nat × Option Nat → Nat × Option Nat × Option Nat
  | none, _, acc => acc
  | some _, 0, acc => acc
  | some h, fuel + 1, acc =>
      let acc := if some h = excluded then acc else tallyRec s h acc
      snapWalk s excluded useNext
        (if useNext then (s.recAt h).next else (s.recAt h).prev) fuel acc

/-- Embeds `snapCount` (adapter.go lines 550-586): walk `prev` from the
anchor record, then `next` from the anchor's successor, counting every record
except `excluded` and tracking the records of maximal and minimal
generation. -/
def snapCountA (t : Immutable) (excluded : Option Nat) (s : Sys) :
    Nat × Option Nat × Option Nat :=
  match t.snap with
  | none => (0, none, none)
  | some c =>
      match s.cell c with
      | none => (0, none, none)
      | some r0 =>
          let fuel := s.recs.length + 1
          let acc := snapWalk s excluded false (some r0) fuel (0, none, none)
          snapWalk s excluded true (s.recAt r0).next fuel acc

/-- Generation of an optional record, with the placeholder the source would
nil-dereference on (unreachable whenever `snapCount ≠ 0`). -/
def maxGenOf (s : Sys) : Option Nat → Int
  | some m => (s.recAt m).generation
  | none => 0

/-- The recycle decision applied to one abandoned node popped from
`oldParents` (adapter.go lines 271-281): pool it immediately when no snapshot
is outstanding or its stamp is above `maxSnap.generation`; otherwise restamp
it `recycleGeneration` and prepend it to `minSnap.recycle`. -/
def recycleOld (snapCnt : Nat) (maxS minS : Option Nat) (s : Sys) : Tree → Sys
  | .node a _ _ _ g _ _ =>
      if snapCnt = 0 then s.poolPut a g
      else if g > maxGenOf s maxS then s.poolPut a g
      else
        match minS with
        | some m =>
            s.updRec m (fun rc =>
              { rc with recycle :=
                  { addr := a, generation := recycleGeneration, handGen := g } :: rc.recycle })
        | none => s
  | .nil => s

/-- Embeds the adapter variant of `PutM` (adapter.go lines 265-283): run
`put` (which bumps the generation in this variant), count snapshots — the
source passes `nil` rather than `excluded` to `snapCount` — and decide the
fate of every abandoned node, popped deepest-first. -/
def PutM (t : Immutable) (key : Bytes) (value : Option Bytes) (prio : Nat)
    (excluded : Option Nat) (s : Sys) : Immutable × Sys :=
  let (tp, old, ctr') := put t key value prio 1 s.ctr
  let s := { s with ctr := ctr' }
  let (snapCnt, maxS, minS) := snapCountA t none s
  let s := old.reverse.foldl (recycleOld snapCnt maxS minS) s
  (tp, s)

/-- Embeds the adapter variant of `DeleteM` (adapter.go lines 432-450), the
same recycling decision applied to the nodes abandoned by `del`. -/
def DeleteM (t : Immutable) (key : Bytes) (excluded : Option Nat) (s : Sys) :
    Immutable × Sys :=
  let (tp, old, ctr') := del t key 1 s.ctr
  let s := { s with ctr := ctr' }
  let (snapCnt, maxS, minS) := snapCountA t none s
  let s := old.reverse.foldl (recycleOld snapCnt maxS minS) s
  (tp, s)

/-- Push a node and all nodes on the left spine below it (the stack priming
loops of `ForEach` and `Recycle`). -/
def leftSpine : Tree → List Tree → List Tree
  | .nil, st => st
  | .node a k v p g l r, st => leftSpine l (.node a k v p g l r :: st)

/-- Termination measure for the explicit-stack traversals: entries on the
stack overlap (a pushed node still contains the entries pushed above it), so
the measure is exponential in tree size. -/
def stackMeasure : List Tree → Nat
  | [] => 0
  | t :: st => 2 ^ t.size + stackMeasure st

/-- Embeds the traversal loop of `Recycle` (adapter.go lines 602-617): pop a
node, push the left spine of its right child, and pool the node when its
stamp is strictly above `snapGen` (deferred nodes carry the negative
`recycleGeneration` and never qualify). -/
def recycleLoopF (snapGen : Int) : Nat → List Tree → Sys → Sys
  | _, [], s => s
  | 0, _, s => s
  | fuel + 1, .nil :: st, s => recycleLoopF snapGen fuel st s
  | fuel + 1, .node a _ _ _ g _ r :: st, s =>
      let st' := leftSpine r st
      let s := if g > snapGen then s.poolPut a g else s
      recycleLoopF snapGen fuel st' s

/-- The traversal loop with fuel `stackMeasure st`, which strictly decreases
at every iteration (`leftSpine_stackMeasure`), so the fuel cannot run out
before the stack empties.  Structural recursion on the fuel keeps the
definition kernel-reducible. -/
def recycleLoop (snapGen : Int) (st : List Tree) (s : Sys) : Sys :=
  recycleLoopF snapGen (stackMeasure st) st s

/-- Embeds `Recycle` (adapter.go lines 588-618): compute the maximal live
snapshot generation — this entry point does honour `excluded` — then walk the
container in order, pooling every node whose stamp is strictly above it. -/
def Recycle (t : Immutable) (excluded : Option Nat) (s : Sys) : Sys :=
  let (_, maxS, _) := snapCountA t excluded s
  let snapGen : Int := match maxS with | some m => (s.recAt m).generation | none => 0
  recycleLoop snapGen (leftSpine t.root []) s

/-! ## The treap-package variant (immutable.go lines 244-257 and 405-418)

That variant's `PutM`/`DeleteM` call `put`/`del` with `bumpGen = 0` and store
the result to `*dest`; the node-recycling bookkeeping never touches the
returned container.  The projections below are those stores. -/

/-- The container stored to `*dest` by the treap-package `PutM`
(immutable.go lines 244-257): `put` with the generation not bumped. -/
def TreapPkg.PutMDest (t : Immutable) (key : Bytes) (value : Option Bytes)
    (prio : Nat) (ctr : Nat) : Immutable :=
  (put t key value prio 0 ctr).1

/-- The container stored to `*dest` by the treap-package `DeleteM`
(immutable.go lines 405-418): `del` with the generation not bumped. -/
def TreapPkg.DeleteMDest (t : Immutable) (key : Bytes) (ctr : Nat) : Immutable :=
  (del t key 0 ctr).1

/-! ## Predicates and auxiliary definitions used by the claims -/

/-- Does every child of a node with priority `p` respect the min-heap
(P.priority ≤ N.priority)? -/
def heapChildOK (p : Nat) : Tree → Bool
  | .nil => true
  | .node _ _ _ cp _ _ _ => decide (p ≤ cp)

/-- The min-heap invariant of the spec (§3, invariant 2): every parent's
priority is ≤ each child's. -/
def heapOK : Tree → Bool
  | .nil => true
  | .node _ _ _ p _ l r => heapOK l && heapOK r && heapChildOK p l && heapChildOK p r

/-- Every node of the tree stores a present (non-nil) value. -/
def valuesPresent : Tree → Bool
  | .nil => true
  | .node _ _ v _ _ l r => v.isSome && valuesPresent l && valuesPresent r

/-- `Sub s t`: the stamped tree `s` occurs as a subtree of `t` — the model's
rendering of "the node s is reachable from the root t" (pointer identity
included, since stamps travel with the nodes). -/
inductive Sub : Tree → Tree → Prop
  | refl (t : Tree) : Sub t t
  | left {s : Tree} (a : Nat) (k : Bytes) (v : Option Bytes) (p : Nat) (g : Int)
      {l : Tree} (r : Tree) : Sub s l → Sub s (.node a k v p g l r)
  | right {s : Tree} (a : Nat) (k : Bytes) (v : Option Bytes) (p : Nat) (g : Int)
      (l : Tree) {r : Tree} : Sub s r → Sub s (.node a k v p g l r)

/-- A frame harvested from the original tree `orig` during a descent that
started with allocation counter `c0`: its clone address is fresh, its shared
child is a subtree of `orig`, and its data fields come from a node of
`orig`. -/
def GoodFrame (c0 : Nat) (orig : Tree) (f : Frame) : Prop :=
  c0 ≤ f.addr ∧ Sub f.other orig ∧
  ∃ a g l r, Sub (.node a f.key f.value f.priority g l r) orig

/-- The frame lies on the search path for `key`: its hole side agrees with
the comparison of `key` against the frame's key. -/
def PathFrame (key : Bytes) (f : Frame) : Prop :=
  bytesCompare key f.key = (if f.dir then .lt else .gt)

/-- Every node of `t` is either freshly allocated (address ≥ c0) or a shared
subtree of `orig` — the structural-sharing property. -/
def SharedIn (c0 : Nat) (orig t : Tree) : Prop :=
  ∀ a k v p g l r, Sub (.node a k v p g l r) t →
    c0 ≤ a ∨ Sub (.node a k v p g l r) orig

/-- `nil`, or a node with a fresh address. -/
def rootFresh (c0 : Nat) : Tree → Prop
  | .nil => True
  | .node a _ _ _ _ _ _ => c0 ≤ a

/-- Modelled from the spec's words (§4.4 Delete and Tie-break), for
refinement comparison with the source's `sinkBuildF`: sink by "rotating with
the child of higher priority (right child if its priority is strictly
greater than the left's, else left child; when one child is null choose the
other; the case of both null terminates the loop)". -/
def sinkSpecF : Nat → Tree → Tree → Nat → Tree × Nat
  | _, .nil, .nil, ctr => (.nil, ctr)
  | 0, _, _, ctr => (.nil, ctr)
  | fuel + 1, .nil, .node _ k v p g rl rr, ctr =>
      let (sub, ctr') := sinkSpecF fuel .nil rl (ctr + 1)
      (.node ctr k v p (g + 1) sub rr, ctr')
  | fuel + 1, .node _ k v p g ll lr, .nil, ctr =>
      let (sub, ctr') := sinkSpecF fuel lr .nil (ctr + 1)
      (.node ctr k v p (g + 1) ll sub, ctr')
  | fuel + 1, .node la lk lv lp lg ll lr, .node ra rk rv rp_ rg rl rr, ctr =>
      if rp_ > lp then
        let (sub, ctr') := sinkSpecF fuel (.node la lk lv lp lg ll lr) rl (ctr + 1)
        (.node ctr rk rv rp_ (rg + 1) sub rr, ctr')
      else
        let (sub, ctr') := sinkSpecF fuel lr (.node ra rk rv rp_ rg rl rr) (ctr + 1)
        (.node ctr lk lv lp (lg + 1) ll sub, ctr')

/-- The raw sequence of record indices visited from `o` along `next`
(`useNext = true`) or `prev`, with the same fuel convention as
`snapWalk`. -/
def snapChain (s : Sys) (useNext : Bool) : Option Nat → Nat → List Nat
  | none, _ => []
  | some _, 0 => []
  | some h, fuel + 1 =>
      h :: snapChain s useNext (if useNext then (s.recAt h).next else (s.recAt h).prev) fuel

/-- All record indices `snapCount` visits for container `t` (both loop
directions), before exclusion filtering. -/
def countedRecs (t : Immutable) (s : Sys) : List Nat :=
  match t.snap with
  | none => []
  | some c =>
      match s.cell c with
      | none => []
      | some r0 =>
          let fuel := s.recs.length + 1
          snapChain s false (some r0) fuel ++ snapChain s true ((s.recAt r0).next) fuel

/-- The pool events the recycle loop of `PutM`/`DeleteM` appends for one
abandoned node, as a function of the pre-computed snapshot census. -/
def immediateEvent (snapCnt : Nat) (maxS : Option Nat) (s : Sys) : Tree → Option (Nat × Int)
  | .node a _ _ _ g _ _ =>
      if snapCnt = 0 then some (a, g)
      else if g > maxGenOf s maxS then some (a, g)
      else none
  | .nil => none

/-- Containers built from `NewImmutable` by any sequence of `Put`/`Delete`
(either variant: `bumpGen` arbitrary), the quantification domain of the
spec's "for every container" claims. -/
inductive Built : Immutable → Prop
  | new : Built NewImmutable
  | put (t : Immutable) (key : Bytes) (value : Option Bytes) (prio : Nat)
      (bumpGen : Int) (ctr : Nat) :
      Built t → Built (put t key value prio bumpGen ctr).1
  | del (t : Immutable) (key : Bytes) (bumpGen : Int) (ctr : Nat) :
      Built t → Built (del t key bumpGen ctr).1

/-! ## Concrete traces used as failing inputs and counterexamples

All priorities play the role of the `rand.Int()` draws of the corresponding
run. -/

/-- Keys 2,1,3 with priorities 0,1,9: a treap satisfying the min-heap. -/
def exHeap1 : Immutable × List Tree × Nat := put NewImmutable [2] (some [20]) 0 1 0

def exHeap2 : Immutable × List Tree × Nat := put exHeap1.1 [1] (some [10]) 1 1 exHeap1.2.2

def exHeap3 : Immutable × List Tree × Nat := put exHeap2.1 [3] (some [30]) 9 1 exHeap2.2.2

/-- C1 trace: two puts, snapshot (gen 2), another put, snapshot (gen 3),
then a mutable overwrite of key 1 and release of the older snapshot. -/
def cxP1 : Immutable × Nat := Immutable.Put NewImmutable [1] (some [1]) 0 0

def cxP2 : Immutable × Nat := Immutable.Put cxP1.1 [2] (some [2]) 0 cxP1.2

def cxS1 : Immutable × Nat × Sys := Snapshot cxP2.1 { Sys.empty with ctr := cxP2.2 }

def cxP3 : Immutable × Nat := Immutable.Put cxS1.1 [3] (some [3]) 0 cxS1.2.2.ctr

def cxS2 : Immutable × Nat × Sys := Snapshot cxP3.1 { cxS1.2.2 with ctr := cxP3.2 }

def cxM : Immutable × Sys := PutM cxS2.1 [1] (some [9]) 0 none cxS2.2.2

def cxF : Sys := Release 0 cxM.2

/-- C10 trace: a second mutable write against the same snapshots; its
abandoned path holds nodes of generations 4 and 3 while the container's
generation is 4 throughout the decision. -/
def cxM2 : Immutable × Sys := PutM cxM.1 [3] (some [8]) 0 none cxM.2

/-- C10 trace: `Recycle` of the three-key container against the single
snapshot of generation 2. -/
def cxR : Sys := Recycle cxP3.1 none { cxS1.2.2 with ctr := cxP3.2 }

/-- C2 trace: one put, one snapshot (generation 1), then a mutable overwrite
passing that very snapshot as `excluded`. -/
def c2P : Immutable × Nat := Immutable.Put NewImmutable [1] (some [1]) 0 0

def c2S : Immutable × Nat × Sys := Snapshot c2P.1 { Sys.empty with ctr := c2P.2 }

def c2M : Immutable × Sys := PutM c2S.1 [1] (some [2]) 0 (some 0) c2S.2.2

/-- C6 trace: snapshot, then a put (whose result still anchors at the first
cell), a second snapshot at the tail, and a third snapshot spliced through
the stale anchor — between records 0 and 1. -/
def c6S1 : Immutable × Nat × Sys := Snapshot NewImmutable Sys.empty

def c6Pb : Immutable × Nat := Immutable.Put c6S1.1 [1] (some [1]) 0 c6S1.2.2.ctr

def c6S2 : Immutable × Nat × Sys := Snapshot c6S1.1 { c6S1.2.2 with ctr := c6Pb.2 }

def c6S3 : Immutable × Nat × Sys := Snapshot c6Pb.1 c6S2.2.2

/-- C5 counterexample input: a mutable put (adapter variant) on the fresh
container. -/
def c5M : Immutable × Sys := PutM NewImmutable [1] (some [1]) 0 none Sys.empty

/-! ## Theorems -/

theorem leftSpine_stackMeasure (t : Tree) (st : List Tree) :
    stackMeasure (leftSpine t st) ≤ 2 ^ (t.size + 1) - 1 + stackMeasure st := by
  induction t generalizing st with
  | nil =>
      have h1 : 0 < 2 ^ (Tree.size .nil + 1) := Nat.pow_pos (by norm_num)
      simp only [leftSpine]
      omega
  | node a k v p g l r ihl ihr =>
      have h := ihl ((Tree.node a k v p g l r) :: st)
      simp only [leftSpine, Tree.size, stackMeasure] at h ⊢
      have h2 : 2 ^ (l.size + 1) ≤ 2 ^ (1 + l.size + r.size) :=
        Nat.pow_le_pow_right (by norm_num) (by omega)
      have h3 : 0 < 2 ^ (l.size + 1) := Nat.pow_pos (by norm_num)
      omega

theorem bytesCompare_refl (k : Bytes) : bytesCompare k k = .eq := by
  induction k with
  | nil => rfl
  | cons a as ih => simp [bytesCompare, Nat.lt_irrefl, ih]

theorem Sub.trans {s t u : Tree} (h1 : Sub s t) (h2 : Sub t u) : Sub s u := by
  induction h2 with
  | refl => exact h1
  | left a k v p g r _ ih => exact Sub.left a k v p g r ih
  | right a k v p g l _ ih => exact Sub.right a k v p g l ih

theorem sub_node_cases {s : Tree} {a : Nat} {k : Bytes} {v : Option Bytes}
    {p : Nat} {g : Int} {l r : Tree} (h : Sub s (.node a k v p g l r)) :
    s = .node a k v p g l r ∨ Sub s l ∨ Sub s r := by
  cases h with
  | refl => exact Or.inl rfl
  | left _ _ _ _ _ _ h => exact Or.inr (Or.inl h)
  | right _ _ _ _ _ _ h => exact Or.inr (Or.inr h)

theorem sub_left_child {a : Nat} {k : Bytes} {v : Option Bytes} {p : Nat}
    {g : Int} {l r : Tree} : Sub l (.node a k v p g l r) :=
  Sub.left a k v p g r (Sub.refl l)

theorem sub_right_child {a : Nat} {k : Bytes} {v : Option Bytes} {p : Nat}
    {g : Int} {l r : Tree} : Sub r (.node a k v p g l r) :=
  Sub.right a k v p g l (Sub.refl r)

theorem delWalk_none_iff (key : Bytes) :
    ∀ (t : Tree) (anc : List (Tree × Bool)),
      delWalk key t anc = none ↔ getNode t key = none := by
  intro t
  induction t with
  | nil => intro anc; simp [delWalk, getNode]
  | node a k v p g l r ihl ihr =>
      intro anc
      simp only [delWalk, getNode]
      cases hcmp : bytesCompare key k with
      | lt => simpa using ihl _
      | gt => simpa using ihr _
      | eq => simp

/-- C8: for a key absent from the container, `Delete` returns the original
container itself (the same handle, hence the same mapping, count and
totalSize), and `Get` reports plain absence. -/
theorem delete_missing_is_noop (t : Immutable) (key : Bytes) (ctr : Nat)
    (h : t.Has key = false) :
    t.Delete key ctr = (t, ctr) ∧ t.Get key = none := by
  have hg : getNode t.root key = none := by
    cases hx : getNode t.root key with
    | none => rfl
    | some nd => simp [Immutable.Has, hx] at h
  have hd : delWalk key t.root [] = none := (delWalk_none_iff key t.root []).mpr hg
  refine ⟨?_, ?_⟩
  · simp [Immutable.Delete, del, hd]
  · simp [Immutable.Get, hg]

theorem delete_missing_is_noop_witness :
    exHeap3.1.Has [9] = false ∧
      (exHeap3.1.Delete [9] 5 = (exHeap3.1, 5) ∧ exHeap3.1.Get [9] = none) :=
  ⟨by decide, delete_missing_is_noop exHeap3.1 [9] 5 (by decide)⟩

/-- C7: the delete sink of the source (`sinkBuildF`, i.e. "left child when
`left.priority >= right.priority`, pattern order left-nil / right-nil
first") computes exactly the spec's description (`sinkSpecF`: right child
exactly when its priority is strictly greater, ties to the left, the sole
non-nil child when one is nil, termination with detachment when both are
nil). -/
theorem del_sink_follows_spec (fuel : Nat) :
    ∀ (l r : Tree) (ctr : Nat), sinkBuildF fuel l r ctr = sinkSpecF fuel l r ctr := by
  induction fuel with
  | zero => intro l r ctr; cases l <;> cases r <;> rfl
  | succ n ih =>
      intro l r ctr
      cases l with
      | nil =>
          cases r with
          | nil => rfl
          | node ra rk rv rp_ rg rl rr => simp [sinkBuildF, sinkSpecF, ih]
      | node la lk lv lp lg ll lr =>
          cases r with
          | nil => simp [sinkBuildF, sinkSpecF, ih]
          | node ra rk rv rp_ rg rl rr =>
              by_cases h : lp ≥ rp_
              · have h2 : ¬ rp_ > lp := by omega
                simp [sinkBuildF, sinkSpecF, h, h2, ih]
              · have h2 : rp_ > lp := by omega
                simp [sinkBuildF, sinkSpecF, h, h2, ih]

/-- C3: the min-heap invariant (spec invariant 2) is violated by `Delete`.
The treap 2,1,3 with priorities 0,1,9 is a valid min-heap; deleting the root
(key 2) promotes the higher-priority child — `del` chooses the child with
`left.priority >= right.priority` reversed, i.e. the larger priority — and
leaves priority 9 as the parent of priority 1. -/
theorem min_heap_violated_by_delete :
    heapOK exHeap3.1.root = true ∧
    exHeap3.1.Has [2] = true ∧
    heapOK (exHeap3.1.Delete [2] exHeap3.2.2).1.root = false := by decide

/-- C2: the source's `PutM` passes `nil` — not `excluded` — to `snapCount`
(adapter.go line 270), contradicting its own doc comment.  With the sole
live snapshot (record 0, generation 1) passed as `excluded`, the census
excluding it is 0, so the claim mandates immediate pooling of the abandoned
root; the code instead counts the excluded record, pools nothing, and defers
the node onto the excluded snapshot's own recycle chain. -/
theorem putm_ignores_excluded :
    (snapCountA c2S.1 (some 0) c2S.2.2).1 = 0 ∧
    c2M.2.pool = [] ∧
    (c2M.2.recAt 0).recycle = [{ addr := 0, generation := -1, handGen := 1 }] := by decide

/-- C5 counterexample: the adapter-variant `PutM` does bump the generation
(its `put` always writes `t.generation+1`), so "the mutable variants leave
the container's generation unchanged" fails on the adapter copy. -/
theorem c5_counterexample :
    c5M.1.generation = 1 ∧ NewImmutable.generation = 0 := by decide

/-- C6 counterexample: after three snapshots — the third spliced through a
stale anchor between records 0 and 1 — the adjacent pair (record 2,
record 1) satisfies A.next = B but B.prev = record 0 ≠ A: `Snapshot` updates
only the predecessor's `next` (adapter.go line 517) and never the
successor's `prev`, so double consistency fails while all three records are
live. -/
theorem c6_counterexample :
    (c6S3.2.2.recAt 2).next = some 1 ∧
    (c6S3.2.2.recAt 1).prev = some 0 ∧
    c6S3.2.2.recs.length = 3 ∧
    c6S3.2.2.released = [] := by decide

/-- C10: `cloneTreapNode` stamps clones with the cloned node's generation
plus one (first conjunct, the universally quantified clone law); node stamps
therefore lag the container generation (after the C1 trace's mutable write
the container is at generation 4 while the key-3 node keeps stamp 3); and
the recycle gates compare those per-node stamps, not the container
generation: in one `PutM` run the abandoned root (stamp 4) is pooled
immediately while the stamp-3 nodes of the same container are deferred, and
`Recycle` against a generation-2 snapshot pools exactly the stamp-3
nodes. -/
theorem clone_generation_semantics :
    (∀ (a : Nat) (k : Bytes) (v : Option Bytes) (p : Nat) (g : Int)
        (l r : Tree) (ctr : Nat),
        cloneTreapNode (.node a k v p g l r) ctr = (.node ctr k v p (g + 1) l r, ctr + 1)) ∧
    (cxM.1.generation = 4 ∧
      getNode cxM.1.root [3] = some (.node 5 [3] (some [3]) 0 3 .nil .nil)) ∧
    (cxM2.1.generation = 5 ∧ cxM2.2.pool = [(6, 4)] ∧
      (cxM2.2.recAt 0).recycle =
        [{ addr := 4, generation := -1, handGen := 3 },
         { addr := 5, generation := -1, handGen := 3 },
         { addr := 3, generation := -1, handGen := 3 }]) ∧
    cxR.pool = [(3, 3), (4, 3), (5, 3)] :=
  ⟨fun _ _ _ _ _ _ _ _ => rfl, by decide, by decide, by decide⟩

/-- C1 counterexample: in the C1 trace the node at address 3 is handed to
`PutM` as abandoned carrying generation 3 and is deferred (snapshot records
0 and 1 are live with generations 2 and 3).  Releasing record 0 pools the
node — while record 1 has never been released and its generation 3 is ≥ the
node's hand-off generation 3, violating "returned to the pool only when no
live snapshot's generation is ≥ the node's generation". -/
theorem c1_counterexample :
    cxM.2.pool = [] ∧
    (cxM.2.recAt 0).recycle = [{ addr := 3, generation := -1, handGen := 3 }] ∧
    cxF.pool = [(3, 3)] ∧
    cxF.released = [0] ∧
    (cxF.recAt 1).generation = 3 := by decide

theorem put_generation (t : Immutable) (key : Bytes) (value : Option Bytes)
    (prio : Nat) (bumpGen : Int) (ctr : Nat) :
    (put t key value prio bumpGen ctr).1.generation = t.generation + bumpGen := by
  unfold put
  cases t.root with
  | nil => rfl
  | node a0 k0 v0 p0 g0 l0 r0 =>
      cases hw : putWalk key (some (value.getD []))
          (.node a0 k0 v0 p0 g0 l0 r0) [] [] ctr with
      | found frames z oldLen olds c' => simp [hw]
      | missing frames olds c' => simp [hw]

theorem delWalk_found_node (key : Bytes) :
    ∀ (t : Tree) (anc anc' : List (Tree × Bool)) (dn : Tree),
      delWalk key t anc = some (anc', dn) →
      ∃ a k v p g l r, dn = .node a k v p g l r ∧ bytesCompare key k = .eq := by
  intro t
  induction t with
  | nil => intro anc anc' dn h; simp [delWalk] at h
  | node a k v p g l r ihl ihr =>
      intro anc anc' dn h
      simp only [delWalk] at h
      cases hcmp : bytesCompare key k with
      | lt => rw [hcmp] at h; exact ihl _ _ _ h
      | gt => rw [hcmp] at h; exact ihr _ _ _ h
      | eq =>
          rw [hcmp] at h
          injection h with h'
          injection h' with h1 h2
          exact ⟨a, k, v, p, g, l, r, h2.symm, hcmp⟩

theorem del_generation_cases (t : Immutable) (key : Bytes) (bumpGen : Int) (ctr : Nat) :
    (del t key bumpGen ctr).1.generation = t.generation + bumpGen ∨
      ((del t key bumpGen ctr).1 = t ∧ t.Has key = false) := by
  unfold del
  cases hx : delWalk key t.root [] with
  | none =>
      refine Or.inr ⟨rfl, ?_⟩
      have := (delWalk_none_iff key t.root []).mp hx
      simp [Immutable.Has, this]
  | some pr =>
      obtain ⟨anc, dn⟩ := pr
      obtain ⟨a, k, v, p, g, l, r, rfl, -⟩ := delWalk_found_node key t.root [] anc dn hx
      left
      cases anc with
      | nil =>
          cases l with
          | nil =>
              cases r with
              | nil => simp
              | node ra rk rv rp_ rg rl rr => simp
          | node la lk lv lp lg ll lr => simp
      | cons x anc' => simp

theorem del_generation_found (t : Immutable) (key : Bytes) (bumpGen : Int)
    (ctr : Nat) (h : t.Has key = true) :
    (del t key bumpGen ctr).1.generation = t.generation + bumpGen := by
  rcases del_generation_cases t key bumpGen ctr with hg | ⟨-, hfalse⟩
  · exact hg
  · rw [h] at hfalse; cases hfalse

/-- C5 (amended): `Put` bumps the generation by exactly one in both variants,
as does `Delete` of a present key (`Delete` of an absent key returns the
original container, so no bump); the treap-package `PutM`/`DeleteM`
(`bumpGen = 0`) leave the generation unchanged; the adapter-variant
`PutM`/`DeleteM` bump it like `Put`/`Delete`. -/
theorem version_monotonicity_two_variants :
    (∀ (t : Immutable) (key : Bytes) (value : Option Bytes) (prio ctr : Nat),
        (t.Put key value prio ctr).1.generation = t.generation + 1) ∧
    (∀ (t : Immutable) (key : Bytes) (ctr : Nat), t.Has key = true →
        (t.Delete key ctr).1.generation = t.generation + 1) ∧
    (∀ (t : Immutable) (key : Bytes) (value : Option Bytes) (prio ctr : Nat),
        (TreapPkg.PutMDest t key value prio ctr).generation = t.generation) ∧
    (∀ (t : Immutable) (key : Bytes) (ctr : Nat),
        (TreapPkg.DeleteMDest t key ctr).generation = t.generation) ∧
    (∀ (t : Immutable) (key : Bytes) (value : Option Bytes) (prio : Nat)
        (exc : Option Nat) (s : Sys),
        (PutM t key value prio exc s).1.generation = t.generation + 1) ∧
    (∀ (t : Immutable) (key : Bytes) (exc : Option Nat) (s : Sys),
        t.Has key = true → (DeleteM t key exc s).1.generation = t.generation + 1) := by
  refine ⟨?_, ?_, ?_, ?_, ?_, ?_⟩
  · intro t key value prio ctr
    simpa [Immutable.Put] using put_generation t key value prio 1 ctr
  · intro t key ctr h
    simpa [Immutable.Delete] using del_generation_found t key 1 ctr h
  · intro t key value prio ctr
    have := put_generation t key value prio 0 ctr
    simpa [TreapPkg.PutMDest] using this
  · intro t key ctr
    rcases del_generation_cases t key 0 ctr with hg | ⟨heq, -⟩
    · simpa [TreapPkg.DeleteMDest] using hg
    · simp [TreapPkg.DeleteMDest, heq]
  · intro t key value prio exc s
    simpa [PutM] using put_generation t key value prio 1 s.ctr
  · intro t key exc s h
    simpa [DeleteM] using del_generation_found t key 1 s.ctr h

theorem version_monotonicity_two_variants_witness :
    exHeap3.1.Has [2] = true ∧
      (exHeap3.1.Delete [2] 9).1.generation = exHeap3.1.generation + 1 :=
  ⟨by decide, version_monotonicity_two_variants.2.1 exHeap3.1 [2] 9 (by decide)⟩

theorem sharedIn_nil (c0 : Nat) (orig : Tree) : SharedIn c0 orig .nil := by
  intro a k v p g l r h
  cases h

theorem sharedIn_of_sub {c0 : Nat} {orig t : Tree} (h : Sub t orig) :
    SharedIn c0 orig t :=
  fun _ _ _ _ _ _ _ hs => Or.inr (hs.trans h)

theorem sharedIn_fill {c0 : Nat} {orig : Tree} {f : Frame} {z : Tree}
    (hf : GoodFrame c0 orig f) (hz : SharedIn c0 orig z) :
    SharedIn c0 orig (f.fill z) := by
  intro a k v p g l r hs
  unfold Frame.fill at hs
  by_cases hd : f.dir
  · rw [if_pos hd] at hs
    rcases sub_node_cases hs with heq | hsub | hsub
    · injection heq with h1 h2 h3 h4 h5 h6 h7
      exact Or.inl (h1 ▸ hf.1)
    · exact hz a k v p g l r hsub
    · exact Or.inr (hsub.trans hf.2.1)
  · rw [if_neg hd] at hs
    rcases sub_node_cases hs with heq | hsub | hsub
    · injection heq with h1 h2 h3 h4 h5 h6 h7
      exact Or.inl (h1 ▸ hf.1)
    · exact Or.inr (hsub.trans hf.2.1)
    · exact hz a k v p g l r hsub

theorem sharedIn_reattach {c0 : Nat} {orig : Tree} :
    ∀ (frames : List Frame) (z : Tree),
      (∀ f ∈ frames, GoodFrame c0 orig f) → SharedIn c0 orig z →
      SharedIn c0 orig (reattach frames z)
  | [], _, _, hz => hz
  | f :: rest, z, hf, hz =>
      sharedIn_reattach rest (f.fill z)
        (fun g hg => hf g (List.mem_cons_of_mem f hg))
        (sharedIn_fill (hf f (List.mem_cons_self f rest)) hz)

theorem sharedIn_fixup {c0 : Nat} {orig : Tree} :
    ∀ (frames : List Frame) (z : Tree),
      (∀ f ∈ frames, GoodFrame c0 orig f) → SharedIn c0 orig z → rootFresh c0 z →
      SharedIn c0 orig (fixup frames z) := by
  intro frames
  induction frames with
  | nil => intro z _ hz _; exact hz
  | cons f rest ih =>
      intro z hf hz hfr
      have hfhead := hf f (List.mem_cons_self f rest)
      have hftail : ∀ g ∈ rest, GoodFrame c0 orig g :=
        fun g hg => hf g (List.mem_cons_of_mem f hg)
      cases z with
      | nil => exact sharedIn_reattach (f :: rest) .nil hf hz
      | node za zk zv zp zg zl zr =>
          have hza : c0 ≤ za := hfr
          simp only [fixup]
          by_cases hp : zp ≥ f.priority
          · rw [if_pos hp]
            exact sharedIn_reattach (f :: rest) _ hf hz
          · rw [if_neg hp]
            by_cases hd : f.dir
            · rw [if_pos hd]
              refine ih _ hftail ?_ hza
              intro a k v p g l r hs
              rcases sub_node_cases hs with heq | hsub | hsub
              · injection heq with h1 h2 h3 h4 h5 h6 h7
                exact Or.inl (h1 ▸ hza)
              · exact hz a k v p g l r (hsub.trans sub_left_child)
              · rcases sub_node_cases hsub with heq | hsub2 | hsub2
                · injection heq with h1 h2 h3 h4 h5 h6 h7
                  exact Or.inl (h1 ▸ hfhead.1)
                · exact hz a k v p g l r (hsub2.trans sub_right_child)
                · exact Or.inr (hsub2.trans hfhead.2.1)
            · rw [if_neg hd]
              refine ih _ hftail ?_ hza
              intro a k v p g l r hs
              rcases sub_node_cases hs with heq | hsub | hsub
              · injection heq with h1 h2 h3 h4 h5 h6 h7
                exact Or.inl (h1 ▸ hza)
              · rcases sub_node_cases hsub with heq | hsub2 | hsub2
                · injection heq with h1 h2 h3 h4 h5 h6 h7
                  exact Or.inl (h1 ▸ hfhead.1)
                · exact Or.inr (hsub2.trans hfhead.2.1)
                · exact hz a k v p g l r (hsub2.trans sub_left_child)
              · exact hz a k v p g l r (hsub.trans sub_right_child)

theorem putWalk_spec (key : Bytes) (v : Option Bytes) (orig : Tree) (c0 : Nat) :
    ∀ (sub : Tree) (frames : List Frame) (olds : List Tree) (c : Nat),
      Sub sub orig →
      (∀ f ∈ frames, GoodFrame c0 orig f ∧ PathFrame key f) →
      c0 ≤ c →
      (∀ frames' z oldLen olds' c',
          putWalk key v sub frames olds c = .found frames' z oldLen olds' c' →
          (∀ f ∈ frames', GoodFrame c0 orig f ∧ PathFrame key f) ∧ c ≤ c' ∧
          ∃ za k0 p0 g0 l0 r0,
            z = .node za k0 v p0 g0 l0 r0 ∧ c0 ≤ za ∧
            bytesCompare key k0 = .eq ∧ Sub l0 orig ∧ Sub r0 orig) ∧
      (∀ frames' olds' c',
          putWalk key v sub frames olds c = .missing frames' olds' c' →
          (∀ f ∈ frames', GoodFrame c0 orig f ∧ PathFrame key f) ∧ c ≤ c') := by
  intro sub
  induction sub with
  | nil =>
      intro frames olds c hsub hf hc
      constructor
      · intro frames' z oldLen olds' c' h
        simp [putWalk] at h
      · intro frames' olds' c' h
        simp only [putWalk] at h
        injection h with e1 e2 e3
        subst e1; subst e3
        exact ⟨hf, Nat.le_refl c⟩
  | node a k val p g l r ihl ihr =>
      intro frames olds c hsub hf hc
      have hl : Sub l orig := sub_left_child.trans hsub
      have hr : Sub r orig := sub_right_child.trans hsub
      constructor
      · intro frames' z oldLen olds' c' h
        simp only [putWalk] at h
        cases hcmp : bytesCompare key k with
        | lt =>
            rw [hcmp] at h
            have hframes : ∀ f,
                f ∈ (⟨c, k, val, p, g + 1, r, true⟩ : Frame) :: frames →
                GoodFrame c0 orig f ∧ PathFrame key f := by
              intro f hfm
              rcases List.mem_cons.mp hfm with rfl | hfm
              · exact ⟨⟨hc, hr, a, g, l, r, hsub⟩, by simp [PathFrame, hcmp]⟩
              · exact hf f hfm
            have := (ihl _ _ (c + 1) hl hframes (Nat.le_succ_of_le hc)).1
              frames' z oldLen olds' c' h
            exact ⟨this.1, Nat.le_of_succ_le this.2.1, this.2.2⟩
        | gt =>
            rw [hcmp] at h
            have hframes : ∀ f,
                f ∈ (⟨c, k, val, p, g + 1, l, false⟩ : Frame) :: frames →
                GoodFrame c0 orig f ∧ PathFrame key f := by
              intro f hfm
              rcases List.mem_cons.mp hfm with rfl | hfm
              · exact ⟨⟨hc, hl, a, g, l, r, hsub⟩, by simp [PathFrame, hcmp]⟩
              · exact hf f hfm
            have := (ihr _ _ (c + 1) hr hframes (Nat.le_succ_of_le hc)).1
              frames' z oldLen olds' c' h
            exact ⟨this.1, Nat.le_of_succ_le this.2.1, this.2.2⟩
        | eq =>
            rw [hcmp] at h
            injection h with e1 e2 e3 e4 e5
            subst e1; subst e2; subst e5
            exact ⟨hf, Nat.le_succ c, c, k, p, g + 1, l, r, rfl, hc, hcmp, hl, hr⟩
      · intro frames' olds' c' h
        simp only [putWalk] at h
        cases hcmp : bytesCompare key k with
        | lt =>
            rw [hcmp] at h
            have hframes : ∀ f,
                f ∈ (⟨c, k, val, p, g + 1, r, true⟩ : Frame) :: frames →
                GoodFrame c0 orig f ∧ PathFrame key f := by
              intro f hfm
              rcases List.mem_cons.mp hfm with rfl | hfm
              · exact ⟨⟨hc, hr, a, g, l, r, hsub⟩, by simp [PathFrame, hcmp]⟩
              · exact hf f hfm
            have := (ihl _ _ (c + 1) hl hframes (Nat.le_succ_of_le hc)).2 frames' olds' c' h
            exact ⟨this.1, Nat.le_of_succ_le this.2⟩
        | gt =>
            rw [hcmp] at h
            have hframes : ∀ f,
                f ∈ (⟨c, k, val, p, g + 1, l, false⟩ : Frame) :: frames →
                GoodFrame c0 orig f ∧ PathFrame key f := by
              intro f hfm
              rcases List.mem_cons.mp hfm with rfl | hfm
              · exact ⟨⟨hc, hl, a, g, l, r, hsub⟩, by simp [PathFrame, hcmp]⟩
              · exact hf f hfm
            have := (ihr _ _ (c + 1) hr hframes (Nat.le_succ_of_le hc)).2 frames' olds' c' h
            exact ⟨this.1, Nat.le_of_succ_le this.2⟩
        | eq => rw [hcmp] at h; cases h

theorem put_shares (t : Immutable) (key : Bytes) (value : Option Bytes)
    (prio : Nat) (bumpGen : Int) (ctr : Nat) :
    SharedIn ctr t.root ((put t key value prio bumpGen ctr).1.root) := by
  unfold put
  cases hroot : t.root with
  | nil =>
      intro a k v p g l r hs
      simp only [getTreapNode] at hs
      rcases sub_node_cases hs with heq | hsub | hsub
      · injection heq with h1 h2 h3 h4 h5 h6 h7
        exact Or.inl (h1 ▸ Nat.le_refl ctr)
      · cases hsub
      · cases hsub
  | node a0 k0 v0 p0 g0 l0 r0 =>
      cases hw : putWalk key (some (value.getD []))
          (.node a0 k0 v0 p0 g0 l0 r0) [] [] ctr with
      | found frames z oldLen olds c' =>
          simp only [hw]
          have hspec := (putWalk_spec key (some (value.getD []))
              (.node a0 k0 v0 p0 g0 l0 r0) ctr (.node a0 k0 v0 p0 g0 l0 r0) [] [] ctr
              (Sub.refl _) (by intro f hf; cases hf) (Nat.le_refl ctr)).1
              frames z oldLen olds c' hw
          obtain ⟨hframes, hcc, za, kz, pz, gz, lz, rz, rfl, hza, hcmpz, hlz, hrz⟩ := hspec
          refine sharedIn_reattach frames _ (fun f hf => (hframes f hf).1) ?_
          intro a k v p g l r hs
          rcases sub_node_cases hs with heq | hsub | hsub
          · injection heq with h1 h2 h3 h4 h5 h6 h7
            exact Or.inl (h1 ▸ hza)
          · exact Or.inr (hsub.trans hlz)
          · exact Or.inr (hsub.trans hrz)
      | missing frames olds c' =>
          simp only [hw, getTreapNode]
          have hspec := (putWalk_spec key (some (value.getD []))
              (.node a0 k0 v0 p0 g0 l0 r0) ctr (.node a0 k0 v0 p0 g0 l0 r0) [] [] ctr
              (Sub.refl _) (by intro f hf; cases hf) (Nat.le_refl ctr)).2
              frames olds c' hw
          obtain ⟨hframes, hcc⟩ := hspec
          refine sharedIn_fixup frames _ (fun f hf => (hframes f hf).1) ?_ hcc
          intro a k v p g l r hs
          rcases sub_node_cases hs with heq | hsub | hsub
          · injection heq with h1 h2 h3 h4 h5 h6 h7
            exact Or.inl (h1 ▸ hcc)
          · cases hsub
          · cases hsub

theorem delWalk_spec (key : Bytes) (orig : Tree) :
    ∀ (sub : Tree) (anc : List (Tree × Bool)),
      Sub sub orig → (∀ x ∈ anc, Sub x.1 orig) →
      ∀ anc' dn, delWalk key sub anc = some (anc', dn) →
        (∀ x ∈ anc', Sub x.1 orig) ∧ Sub dn orig := by
  intro sub
  induction sub with
  | nil => intro anc _ _ anc' dn h; simp [delWalk] at h
  | node a k v p g l r ihl ihr =>
      intro anc hsub hanc anc' dn h
      have hl : Sub l orig := sub_left_child.trans hsub
      have hr : Sub r orig := sub_right_child.trans hsub
      simp only [delWalk] at h
      cases hcmp : bytesCompare key k with
      | lt =>
          rw [hcmp] at h
          refine ihl _ hl ?_ _ _ h
          intro x hx
          rcases List.mem_append.mp hx with hx | hx
          · exact hanc x hx
          · rw [List.mem_singleton.mp hx]
            exact hsub
      | gt =>
          rw [hcmp] at h
          refine ihr _ hr ?_ _ _ h
          intro x hx
          rcases List.mem_append.mp hx with hx | hx
          · exact hanc x hx
          · rw [List.mem_singleton.mp hx]
            exact hsub
      | eq =>
          rw [hcmp] at h
          injection h with h'
          injection h' with h1 h2
          subst h1; subst h2
          exact ⟨hanc, hsub⟩

theorem delFrames_spec (c0 : Nat) (orig : Tree) :
    ∀ (anc : List (Tree × Bool)) (c : Nat) (acc : List Frame),
      (∀ x ∈ anc, Sub x.1 orig) → c0 ≤ c →
      (∀ f ∈ acc, GoodFrame c0 orig f) →
      (∀ f ∈ (delFrames anc c acc).1, GoodFrame c0 orig f) ∧
        c ≤ (delFrames anc c acc).2 := by
  intro anc
  induction anc with
  | nil => intro c acc _ _ hacc; exact ⟨hacc, Nat.le_refl c⟩
  | cons x rest ih =>
      intro c acc hanc hc hacc
      obtain ⟨nd, d⟩ := x
      have hnd : Sub nd orig := hanc (nd, d) (List.mem_cons_self _ _)
      have hrest : ∀ y ∈ rest, Sub y.1 orig := fun y hy => hanc y (List.mem_cons_of_mem _ hy)
      cases nd with
      | nil =>
          simp only [delFrames]
          exact ih c acc hrest hc hacc
      | node a k v p g l r =>
          simp only [delFrames]
          have hstep := ih (c + 1) (⟨c, k, v, p, g + 1, if d then r else l, d⟩ :: acc)
            hrest (Nat.le_succ_of_le hc) ?_
          · exact ⟨hstep.1, Nat.le_of_succ_le hstep.2⟩
          · intro f hf
            rcases List.mem_cons.mp hf with rfl | hf
            · refine ⟨hc, ?_, a, g, l, r, hnd⟩
              cases d
              · simpa using sub_left_child.trans hnd
              · simpa using sub_right_child.trans hnd
            · exact hacc f hf

theorem sink_shares (c0 : Nat) (orig : Tree) :
    ∀ (fuel : Nat) (l r : Tree) (c : Nat),
      Sub l orig → Sub r orig → c0 ≤ c →
      SharedIn c0 orig (sinkBuildF fuel l r c).1 ∧ c ≤ (sinkBuildF fuel l r c).2 := by
  intro fuel
  induction fuel with
  | zero =>
      intro l r c _ _ _
      cases l <;> cases r <;> exact ⟨sharedIn_nil c0 orig, Nat.le_refl c⟩
  | succ n ih =>
      intro l r c hl hr hc
      cases l with
      | nil =>
          cases r with
          | nil => exact ⟨sharedIn_nil c0 orig, Nat.le_refl c⟩
          | node ra rk rv rp_ rg rl rr =>
              have hrl : Sub rl orig := sub_left_child.trans hr
              have hrr : Sub rr orig := sub_right_child.trans hr
              rcases hsb : sinkBuildF n .nil rl (c + 1) with ⟨sub, ctr2⟩
              have hss := ih .nil rl (c + 1) hl hrl (Nat.le_succ_of_le hc)
              rw [hsb] at hss
              simp only [sinkBuildF, hsb]
              constructor
              · intro a k v p g l' r' hs
                rcases sub_node_cases hs with heq | hss2 | hss2
                · injection heq with h1 h2 h3 h4 h5 h6 h7
                  exact Or.inl (h1 ▸ hc)
                · exact hss.1 a k v p g l' r' hss2
                · exact Or.inr (hss2.trans hrr)
              · exact Nat.le_of_succ_le hss.2
      | node la lk lv lp lg ll lr =>
          cases r with
          | nil =>
              have hll : Sub ll orig := sub_left_child.trans hl
              have hlr : Sub lr orig := sub_right_child.trans hl
              rcases hsb : sinkBuildF n lr .nil (c + 1) with ⟨sub, ctr2⟩
              have hss := ih lr .nil (c + 1) hlr hr (Nat.le_succ_of_le hc)
              rw [hsb] at hss
              simp only [sinkBuildF, hsb]
              constructor
              · intro a k v p g l' r' hs
                rcases sub_node_cases hs with heq | hss2 | hss2
                · injection heq with h1 h2 h3 h4 h5 h6 h7
                  exact Or.inl (h1 ▸ hc)
                · exact Or.inr (hss2.trans hll)
                · exact hss.1 a k v p g l' r' hss2
              · exact Nat.le_of_succ_le hss.2
          | node ra rk rv rp_ rg rl rr =>
              have hll : Sub ll orig := sub_left_child.trans hl
              have hlr : Sub lr orig := sub_right_child.trans hl
              have hrl : Sub rl orig := sub_left_child.trans hr
              have hrr : Sub rr orig := sub_right_child.trans hr
              by_cases hp : lp ≥ rp_
              · rcases hsb : sinkBuildF n lr (.node ra rk rv rp_ rg rl rr) (c + 1) with ⟨sub, ctr2⟩
                have hss := ih lr (.node ra rk rv rp_ rg rl rr) (c + 1) hlr hr (Nat.le_succ_of_le hc)
                rw [hsb] at hss
                simp only [sinkBuildF, if_pos hp, hsb]
                constructor
                · intro a k v p g l' r' hs
                  rcases sub_node_cases hs with heq | hss2 | hss2
                  · injection heq with h1 h2 h3 h4 h5 h6 h7
                    exact Or.inl (h1 ▸ hc)
                  · exact Or.inr (hss2.trans hll)
                  · exact hss.1 a k v p g l' r' hss2
                · exact Nat.le_of_succ_le hss.2
              · rcases hsb : sinkBuildF n (.node la lk lv lp lg ll lr) rl (c + 1) with ⟨sub, ctr2⟩
                have hss := ih (.node la lk lv lp lg ll lr) rl (c + 1) hl hrl (Nat.le_succ_of_le hc)
                rw [hsb] at hss
                simp only [sinkBuildF, if_neg hp, hsb]
                constructor
                · intro a k v p g l' r' hs
                  rcases sub_node_cases hs with heq | hss2 | hss2
                  · injection heq with h1 h2 h3 h4 h5 h6 h7
                    exact Or.inl (h1 ▸ hc)
                  · exact hss.1 a k v p g l' r' hss2
                  · exact Or.inr (hss2.trans hrr)
                · exact Nat.le_of_succ_le hss.2

theorem del_shares (t : Immutable) (key : Bytes) (bumpGen : Int) (ctr : Nat) :
    SharedIn ctr t.root ((del t key bumpGen ctr).1.root) := by
  unfold del
  cases hx : delWalk key t.root [] with
  | none => exact sharedIn_of_sub (Sub.refl t.root)
  | some pr =>
      obtain ⟨anc, dn⟩ := pr
      obtain ⟨a, k, v, p, g, dl, dr, rfl, -⟩ := delWalk_found_node key t.root [] anc dn hx
      have hspec := delWalk_spec key t.root t.root [] (Sub.refl _)
        (by intro x hx'; cases hx') anc _ hx
      have hanc := hspec.1
      have hdn := hspec.2
      have hdl : Sub dl t.root := sub_left_child.trans hdn
      have hdr : Sub dr t.root := sub_right_child.trans hdn
      rcases hdf : delFrames anc ctr [] with ⟨frames, ctr1⟩
      have hdfs := delFrames_spec ctr t.root anc ctr [] hanc (Nat.le_refl _)
        (by intro f hf; cases hf)
      rw [hdf] at hdfs
      rcases hsb : sinkBuildF (dl.size + dr.size) dl dr (ctr1 + 1) with ⟨sub, ctr2⟩
      have hss := sink_shares ctr t.root (dl.size + dr.size) dl dr (ctr1 + 1)
        hdl hdr (Nat.le_succ_of_le hdfs.2)
      rw [hsb] at hss
      have hgen : SharedIn ctr t.root (reattach frames sub) :=
        sharedIn_reattach frames sub hdfs.1 hss.1
      cases anc with
      | nil =>
          cases dl with
          | nil =>
              cases dr with
              | nil => exact sharedIn_nil ctr t.root
              | node ra2 rk2 rv2 rp2 rg2 rl2 rr2 =>
                  simp only [sinkBuild, hdf, hsb, hgen]
          | node la2 lk2 lv2 lp2 lg2 ll2 lr2 =>
              simp only [sinkBuild, hdf, hsb, hgen]
      | cons x anc' =>
          simp only [sinkBuild, hdf, hsb, hgen]

/-- C4: structural sharing.  In the address-stamped model (pointer identity
= stamp equality, sound because `put`/`del` write only to nodes freshly
obtained from the pool — the old handle `t` is never mutated, which is also
why every read through `t` is unchanged by the operation), every node
reachable from the new root is either freshly allocated (address ≥ the
allocation counter at the start of the operation — the cloned/rotated
modified path and the new node) or is literally a shared subtree of the old
root, for both `put` and `del` and hence for `Put`/`Delete`/`PutM`/
`DeleteM`. -/
theorem structural_sharing_put_delete :
    (∀ (t : Immutable) (key : Bytes) (value : Option Bytes) (prio : Nat)
        (bumpGen : Int) (ctr : Nat) (a : Nat) (k : Bytes) (v : Option Bytes)
        (p : Nat) (g : Int) (l r : Tree),
        Sub (.node a k v p g l r) ((put t key value prio bumpGen ctr).1.root) →
        ctr ≤ a ∨ Sub (.node a k v p g l r) t.root) ∧
    (∀ (t : Immutable) (key : Bytes) (bumpGen : Int) (ctr : Nat) (a : Nat)
        (k : Bytes) (v : Option Bytes) (p : Nat) (g : Int) (l r : Tree),
        Sub (.node a k v p g l r) ((del t key bumpGen ctr).1.root) →
        ctr ≤ a ∨ Sub (.node a k v p g l r) t.root) :=
  ⟨fun t key value prio bumpGen ctr a k v p g l r hs =>
      put_shares t key value prio bumpGen ctr a k v p g l r hs,
   fun t key bumpGen ctr a k v p g l r hs =>
      del_shares t key bumpGen ctr a k v p g l r hs⟩

theorem structural_sharing_put_delete_witness :
    0 ≤ 0 ∨ Sub (.node 0 [2] (some [20]) 0 1 .nil .nil) NewImmutable.root :=
  structural_sharing_put_delete.1 NewImmutable [2] (some [20]) 0 1 0
    0 [2] (some [20]) 0 1 .nil .nil (Sub.refl _)

theorem getNode_fill {key : Bytes} {f : Frame} (hp : PathFrame key f) (z : Tree) :
    getNode (f.fill z) key = getNode z key := by
  unfold PathFrame at hp
  unfold Frame.fill
  cases hd : f.dir
  · rw [hd] at hp
    simp only [Bool.false_eq_true, if_false] at hp ⊢
    simp [getNode, hp]
  · rw [hd] at hp
    simp only [if_true] at hp ⊢
    simp [getNode, hp]

theorem getNode_reattach {key : Bytes} :
    ∀ (frames : List Frame) (z : Tree),
      (∀ f ∈ frames, PathFrame key f) →
      getNode (reattach frames z) key = getNode z key
  | [], _, _ => rfl
  | f :: rest, z, hp =>
      (getNode_reattach rest (f.fill z)
        (fun g hg => hp g (List.mem_cons_of_mem f hg))).trans
        (getNode_fill (hp f (List.mem_cons_self f rest)) z)

theorem getNode_fixup {key : Bytes} :
    ∀ (frames : List Frame) (za : Nat) (zk : Bytes) (zv : Option Bytes)
      (zp : Nat) (zg : Int) (zl zr : Tree),
      (∀ f ∈ frames, PathFrame key f) → bytesCompare key zk = .eq →
      ∃ l2 r2, getNode (fixup frames (.node za zk zv zp zg zl zr)) key =
        some (.node za zk zv zp zg l2 r2) := by
  intro frames
  induction frames with
  | nil =>
      intro za zk zv zp zg zl zr _ heq
      exact ⟨zl, zr, by simp [fixup, getNode, heq]⟩
  | cons f rest ih =>
      intro za zk zv zp zg zl zr hp heq
      have hpt : ∀ g ∈ rest, PathFrame key g :=
        fun g hg => hp g (List.mem_cons_of_mem f hg)
      simp only [fixup]
      by_cases hcond : zp ≥ f.priority
      · rw [if_pos hcond]
        refine ⟨zl, zr, ?_⟩
        rw [getNode_reattach (f :: rest) _ hp]
        simp [getNode, heq]
      · rw [if_neg hcond]
        cases hd : f.dir
        · simp only [Bool.false_eq_true, if_false]
          exact ih za zk zv zp zg
            (.node f.addr f.key f.value f.priority f.generation f.other zl) zr hpt heq
        · simp only [if_true]
          exact ih za zk zv zp zg zl
            (.node f.addr f.key f.value f.priority f.generation zr f.other) hpt heq

theorem put_get (t : Immutable) (key : Bytes) (value : Option Bytes)
    (prio : Nat) (bumpGen : Int) (ctr : Nat) :
    (put t key value prio bumpGen ctr).1.Get key = some (value.getD []) ∧
    (put t key value prio bumpGen ctr).1.Has key = true := by
  suffices h : ∃ a0 p0 g0 l0 r0,
      getNode (put t key value prio bumpGen ctr).1.root key =
        some (.node a0 key (some (value.getD [])) p0 g0 l0 r0) by
    obtain ⟨a0, p0, g0, l0, r0, hx⟩ := h
    exact ⟨by simp [Immutable.Get, hx], by simp [Immutable.Has, hx]⟩
  unfold put
  cases t.root with
  | nil =>
      refine ⟨ctr, prio, t.generation + bumpGen, .nil, .nil, ?_⟩
      simp [getTreapNode, getNode, bytesCompare_refl]
  | node a0 k0 v0 p0 g0 l0 r0 =>
      cases hw : putWalk key (some (value.getD []))
          (.node a0 k0 v0 p0 g0 l0 r0) [] [] ctr with
      | found frames z oldLen olds c' =>
          have hspec := (putWalk_spec key (some (value.getD []))
              (.node a0 k0 v0 p0 g0 l0 r0) ctr (.node a0 k0 v0 p0 g0 l0 r0) [] [] ctr
              (Sub.refl _) (by intro f hf; cases hf) (Nat.le_refl ctr)).1
              frames z oldLen olds c' hw
          obtain ⟨hframes, -, za, kz, pz, gz, lz, rz, rfl, -, hcmpz, -, -⟩ := hspec
          have hkey : kz = key := by
            clear hframes hw
            induction key generalizing kz with
            | nil => cases kz with
              | nil => rfl
              | cons b bs => simp [bytesCompare] at hcmpz
            | cons a as ih =>
                cases kz with
                | nil => simp [bytesCompare] at hcmpz
                | cons b bs =>
                    simp only [bytesCompare] at hcmpz
                    by_cases hab : a < b
                    · simp [hab] at hcmpz
                    · by_cases hba : b < a
                      · simp [hab, hba] at hcmpz
                      · have : a = b := by omega
                        subst this
                        simp [hab, hba] at hcmpz
                        rw [ih bs hcmpz]
          subst hkey
          refine ⟨za, pz, gz, lz, rz, ?_⟩
          simp only [hw]
          rw [getNode_reattach frames _ (fun f hf => (hframes f hf).2)]
          simp [getNode, bytesCompare_refl]
      | missing frames olds c' =>
          have hspec := (putWalk_spec key (some (value.getD []))
              (.node a0 k0 v0 p0 g0 l0 r0) ctr (.node a0 k0 v0 p0 g0 l0 r0) [] [] ctr
              (Sub.refl _) (by intro f hf; cases hf) (Nat.le_refl ctr)).2
              frames olds c' hw
          obtain ⟨hframes, -⟩ := hspec
          obtain ⟨l2, r2, hfix⟩ := getNode_fixup frames c' key (some (value.getD []))
            prio (t.generation + bumpGen) .nil .nil
            (fun f hf => (hframes f hf).2) (bytesCompare_refl key)
          refine ⟨c', prio, t.generation + bumpGen, l2, r2, ?_⟩
          simp only [hw, getTreapNode]
          exact hfix

theorem valuesPresent_sub {s t : Tree} (h : Sub s t) :
    valuesPresent t = true → valuesPresent s = true := by
  induction h with
  | refl => exact id
  | left a k v p g r hsub ih =>
      intro hv
      simp only [valuesPresent, Bool.and_eq_true] at hv
      exact ih hv.1.2
  | right a k v p g l hsub ih =>
      intro hv
      simp only [valuesPresent, Bool.and_eq_true] at hv
      exact ih hv.2

theorem goodFrame_values {c0 : Nat} {orig : Tree} {f : Frame}
    (hf : GoodFrame c0 orig f) (hv : valuesPresent orig = true) :
    f.value.isSome = true ∧ valuesPresent f.other = true := by
  obtain ⟨-, hother, a, g, l, r, hsub⟩ := hf
  have h1 := valuesPresent_sub hsub hv
  simp only [valuesPresent, Bool.and_eq_true] at h1
  exact ⟨h1.1.1, valuesPresent_sub hother hv⟩

theorem valuesPresent_fill {f : Frame} {z : Tree}
    (h1 : f.value.isSome = true) (h2 : valuesPresent f.other = true)
    (hz : valuesPresent z = true) : valuesPresent (f.fill z) = true := by
  unfold Frame.fill
  by_cases hd : f.dir
  · rw [if_pos hd]; simp [valuesPresent, h1, h2, hz]
  · rw [if_neg hd]; simp [valuesPresent, h1, h2, hz]

theorem valuesPresent_reattach :
    ∀ (frames : List Frame) (z : Tree),
      (∀ f ∈ frames, f.value.isSome = true ∧ valuesPresent f.other = true) →
      valuesPresent z = true → valuesPresent (reattach frames z) = true
  | [], _, _, hz => hz
  | f :: rest, z, hf, hz =>
      valuesPresent_reattach rest (f.fill z)
        (fun g hg => hf g (List.mem_cons_of_mem f hg))
        (valuesPresent_fill (hf f (List.mem_cons_self f rest)).1
          (hf f (List.mem_cons_self f rest)).2 hz)

theorem valuesPresent_fixup :
    ∀ (frames : List Frame) (z : Tree),
      (∀ f ∈ frames, f.value.isSome = true ∧ valuesPresent f.other = true) →
      valuesPresent z = true → valuesPresent (fixup frames z) = true := by
  intro frames
  induction frames with
  | nil => intro z _ hz; exact hz
  | cons f rest ih =>
      intro z hf hz
      have hfh := hf f (List.mem_cons_self f rest)
      have hft : ∀ g ∈ rest, g.value.isSome = true ∧ valuesPresent g.other = true :=
        fun g hg => hf g (List.mem_cons_of_mem f hg)
      cases z with
      | nil => exact valuesPresent_reattach (f :: rest) .nil hf hz
      | node za zk zv zp zg zl zr =>
          have hz' : zv.isSome = true ∧ valuesPresent zl = true ∧ valuesPresent zr = true := by
            simpa [valuesPresent, Bool.and_eq_true, and_assoc] using hz
          simp only [fixup]
          by_cases hcond : zp ≥ f.priority
          · rw [if_pos hcond]
            exact valuesPresent_reattach (f :: rest) _ hf hz
          · rw [if_neg hcond]
            cases hd : f.dir
            · simp only [Bool.false_eq_true, if_false]
              refine ih _ hft ?_
              simp [valuesPresent, hz'.1, hz'.2.1, hz'.2.2, hfh.1, hfh.2]
            · simp only [if_true]
              refine ih _ hft ?_
              simp [valuesPresent, hz'.1, hz'.2.1, hz'.2.2, hfh.1, hfh.2]

theorem valuesPresent_sink :
    ∀ (fuel : Nat) (l r : Tree) (c : Nat),
      valuesPresent l = true → valuesPresent r = true →
      valuesPresent (sinkBuildF fuel l r c).1 = true := by
  intro fuel
  induction fuel with
  | zero => intro l r c _ _; cases l <;> cases r <;> rfl
  | succ n ih =>
      intro l r c hl hr
      cases l with
      | nil =>
          cases r with
          | nil => rfl
          | node ra rk rv rp_ rg rl rr =>
              have hr' : rv.isSome = true ∧ valuesPresent rl = true ∧ valuesPresent rr = true := by
                simpa [valuesPresent, Bool.and_eq_true, and_assoc] using hr
              rcases hsb : sinkBuildF n .nil rl (c + 1) with ⟨sub, ctr2⟩
              have := ih .nil rl (c + 1) hl hr'.2.1
              rw [hsb] at this
              simp only [sinkBuildF, hsb]
              simp [valuesPresent, hr'.1, hr'.2.2, this]
      | node la lk lv lp lg ll lr =>
          have hl' : lv.isSome = true ∧ valuesPresent ll = true ∧ valuesPresent lr = true := by
            simpa [valuesPresent, Bool.and_eq_true, and_assoc] using hl
          cases r with
          | nil =>
              rcases hsb : sinkBuildF n lr .nil (c + 1) with ⟨sub, ctr2⟩
              have := ih lr .nil (c + 1) hl'.2.2 hr
              rw [hsb] at this
              simp only [sinkBuildF, hsb]
              simp [valuesPresent, hl'.1, hl'.2.1, this]
          | node ra rk rv rp_ rg rl rr =>
              have hr' : rv.isSome = true ∧ valuesPresent rl = true ∧ valuesPresent rr = true := by
                simpa [valuesPresent, Bool.and_eq_true, and_assoc] using hr
              by_cases hp : lp ≥ rp_
              · rcases hsb : sinkBuildF n lr (.node ra rk rv rp_ rg rl rr) (c + 1) with ⟨sub, ctr2⟩
                have := ih lr (.node ra rk rv rp_ rg rl rr) (c + 1) hl'.2.2 hr
                rw [hsb] at this
                simp only [sinkBuildF, if_pos hp, hsb]
                simp [valuesPresent, hl'.1, hl'.2.1, this]
              · rcases hsb : sinkBuildF n (.node la lk lv lp lg ll lr) rl (c + 1) with ⟨sub, ctr2⟩
                have := ih (.node la lk lv lp lg ll lr) rl (c + 1) hl hr'.2.1
                rw [hsb] at this
                simp only [sinkBuildF, if_neg hp, hsb]
                simp [valuesPresent, hr'.1, hr'.2.2, this]

theorem put_valuesPresent (t : Immutable) (key : Bytes) (value : Option Bytes)
    (prio : Nat) (bumpGen : Int) (ctr : Nat)
    (hv : valuesPresent t.root = true) :
    valuesPresent ((put t key value prio bumpGen ctr).1.root) = true := by
  unfold put
  cases hroot : t.root with
  | nil => simp [getTreapNode, valuesPresent]
  | node a0 k0 v0 p0 g0 l0 r0 =>
      rw [hroot] at hv
      cases hw : putWalk key (some (value.getD []))
          (.node a0 k0 v0 p0 g0 l0 r0) [] [] ctr with
      | found frames z oldLen olds c' =>
          have hspec := (putWalk_spec key (some (value.getD []))
              (.node a0 k0 v0 p0 g0 l0 r0) ctr (.node a0 k0 v0 p0 g0 l0 r0) [] [] ctr
              (Sub.refl _) (by intro f hf; cases hf) (Nat.le_refl ctr)).1
              frames z oldLen olds c' hw
          obtain ⟨hframes, -, za, kz, pz, gz, lz, rz, rfl, -, -, hlz, hrz⟩ := hspec
          simp only [hw]
          refine valuesPresent_reattach frames _
            (fun f hf => goodFrame_values (hframes f hf).1 hv) ?_
          simp [valuesPresent, valuesPresent_sub hlz hv, valuesPresent_sub hrz hv]
      | missing frames olds c' =>
          have hspec := (putWalk_spec key (some (value.getD []))
              (.node a0 k0 v0 p0 g0 l0 r0) ctr (.node a0 k0 v0 p0 g0 l0 r0) [] [] ctr
              (Sub.refl _) (by intro f hf; cases hf) (Nat.le_refl ctr)).2
              frames olds c' hw
          obtain ⟨hframes, -⟩ := hspec
          simp only [hw, getTreapNode]
          refine valuesPresent_fixup frames _
            (fun f hf => goodFrame_values (hframes f hf).1 hv) ?_
          simp [valuesPresent]

theorem del_valuesPresent (t : Immutable) (key : Bytes) (bumpGen : Int)
    (ctr : Nat) (hv : valuesPresent t.root = true) :
    valuesPresent ((del t key bumpGen ctr).1.root) = true := by
  unfold del
  cases hx : delWalk key t.root [] with
  | none => exact hv
  | some pr =>
      obtain ⟨anc, dn⟩ := pr
      obtain ⟨a, k, v, p, g, dl, dr, rfl, -⟩ := delWalk_found_node key t.root [] anc dn hx
      have hspec := delWalk_spec key t.root t.root [] (Sub.refl _)
        (by intro x hx'; cases hx') anc _ hx
      have hanc := hspec.1
      have hdn := hspec.2
      have hdl : valuesPresent dl = true := valuesPresent_sub (sub_left_child.trans hdn) hv
      have hdr : valuesPresent dr = true := valuesPresent_sub (sub_right_child.trans hdn) hv
      rcases hdf : delFrames anc ctr [] with ⟨frames, ctr1⟩
      have hdfs := delFrames_spec ctr t.root anc ctr [] hanc (Nat.le_refl _)
        (by intro f hf; cases hf)
      rw [hdf] at hdfs
      rcases hsb : sinkBuildF (dl.size + dr.size) dl dr (ctr1 + 1) with ⟨sub, ctr2⟩
      have hss := valuesPresent_sink (dl.size + dr.size) dl dr (ctr1 + 1) hdl hdr
      rw [hsb] at hss
      have hgen : valuesPresent (reattach frames sub) = true :=
        valuesPresent_reattach frames sub
          (fun f hf => goodFrame_values (hdfs.1 f hf) hv) hss
      cases anc with
      | nil =>
          cases dl with
          | nil =>
              cases dr with
              | nil => rfl
              | node ra2 rk2 rv2 rp2 rg2 rl2 rr2 => simp only [sinkBuild, hdf, hsb, hgen]
          | node la2 lk2 lv2 lp2 lg2 ll2 lr2 => simp only [sinkBuild, hdf, hsb, hgen]
      | cons x anc' => simp only [sinkBuild, hdf, hsb, hgen]

theorem built_valuesPresent {t : Immutable} (h : Built t) :
    valuesPresent t.root = true := by
  induction h with
  | new => rfl
  | put t key value prio b c _ ih => exact put_valuesPresent t key value prio b c ih
  | del t key b c _ ih => exact del_valuesPresent t key b c ih

theorem getNode_shape {key : Bytes} :
    ∀ (t nd : Tree), getNode t key = some nd →
      ∃ a k v p g l r, nd = Tree.node a k v p g l r ∧ Sub nd t := by
  intro t
  induction t with
  | nil => intro nd h; simp [getNode] at h
  | node a k v p g l r ihl ihr =>
      intro nd h
      simp only [getNode] at h
      cases hcmp : bytesCompare key k with
      | lt =>
          rw [hcmp] at h
          obtain ⟨a', k', v', p', g', l', r', hnd, hsub⟩ := ihl nd h
          exact ⟨a', k', v', p', g', l', r', hnd, hsub.trans sub_left_child⟩
      | gt =>
          rw [hcmp] at h
          obtain ⟨a', k', v', p', g', l', r', hnd, hsub⟩ := ihr nd h
          exact ⟨a', k', v', p', g', l', r', hnd, hsub.trans sub_right_child⟩
      | eq =>
          rw [hcmp] at h
          injection h with h'
          exact ⟨a, k, v, p, g, l, r, h'.symm, h' ▸ Sub.refl _⟩

/-- C9: `Put(k,v).Get(k)` returns the stored value in both variants, with a
nil `v` stored as the empty non-nil slice (`some (v.getD [])` is `v` when
present and `some []` when nil), and `Has` holds for the key; moreover over
every container built by `Put`/`Delete` from `NewImmutable`, `Get` returns
nil (`none`) exactly for the keys `Has` reports absent — stored values are
never nil, so an empty-present value is distinguishable from absence. -/
theorem put_get_semantics :
    (∀ (t : Immutable) (key : Bytes) (value : Option Bytes) (prio : Nat)
        (bumpGen : Int) (ctr : Nat),
        (put t key value prio bumpGen ctr).1.Get key = some (value.getD []) ∧
        (put t key value prio bumpGen ctr).1.Has key = true) ∧
    (∀ t : Immutable, Built t → ∀ key : Bytes,
        (t.Get key = none ↔ t.Has key = false)) := by
  constructor
  · exact put_get
  · intro t ht key
    have hv := built_valuesPresent ht
    constructor
    · intro hget
      cases hx : getNode t.root key with
      | none => simp [Immutable.Has, hx]
      | some nd =>
          obtain ⟨a, k, v, p, g, l, r, rfl, hsub⟩ := getNode_shape t.root nd hx
          have hvp := valuesPresent_sub hsub hv
          simp only [valuesPresent, Bool.and_eq_true] at hvp
          simp only [Immutable.Get, hx] at hget
          rw [hget] at hvp
          simp at hvp
    · intro hhas
      have hx : getNode t.root key = none := by
        cases hx : getNode t.root key with
        | none => rfl
        | some nd => simp [Immutable.Has, hx] at hhas
      simp [Immutable.Get, hx]

theorem put_get_semantics_witness :
    (put NewImmutable [1] (some [1]) 0 1 0).1.Get [9] = none ↔
      (put NewImmutable [1] (some [1]) 0 1 0).1.Has [9] = false :=
  put_get_semantics.2 _ (Built.put NewImmutable [1] (some [1]) 0 1 0 Built.new) [9]

theorem getD_set_self {α : Type} :
    ∀ (l : List α) (i : Nat) (x d : α), i < l.length → (l.set i x).getD i d = x
  | [], i, _, _, h => absurd h (by simp)
  | _ :: _, 0, _, _, _ => rfl
  | _ :: l, i + 1, x, d, h => getD_set_self l i x d (by simpa using h)

theorem getD_set_ne {α : Type} :
    ∀ (l : List α) (i j : Nat) (x d : α), i ≠ j → (l.set i x).getD j d = l.getD j d
  | [], _, _, _, _, _ => rfl
  | _ :: _, 0, 0, _, _, h => absurd rfl h
  | _ :: _, 0, _ + 1, _, _, _ => rfl
  | _ :: _, _ + 1, 0, _, _, _ => rfl
  | _ :: l, i + 1, j + 1, x, d, h =>
      getD_set_ne l i j x d (fun he => h (by rw [he]))

theorem getD_append_left {α : Type} :
    ∀ (l1 l2 : List α) (i : Nat) (d : α), i < l1.length →
      (l1 ++ l2).getD i d = l1.getD i d
  | [], _, i, _, h => absurd h (by simp)
  | _ :: _, _, 0, _, _ => rfl
  | _ :: l1, l2, i + 1, d, h => getD_append_left l1 l2 i d (by simpa using h)

theorem getD_append_length {α : Type} :
    ∀ (l : List α) (x d : α), (l ++ [x]).getD l.length d = x
  | [], _, _ => rfl
  | _ :: l, x, d => getD_append_length l x d

theorem pool_foldl_poolPut :
    ∀ (chain : List DefNode) (s : Sys),
      (chain.foldl (fun st d => st.poolPut d.addr d.handGen) s).pool =
        s.pool ++ chain.map (fun d => (d.addr, d.handGen)) := by
  intro chain
  induction chain with
  | nil => intro s; simp
  | cons d rest ih =>
      intro s
      rw [List.foldl_cons, ih]
      simp [Sys.poolPut]

theorem set_oob {α : Type} :
    ∀ (l : List α) (i : Nat) (x : α), l.length ≤ i → l.set i x = l
  | [], _, _, _ => rfl
  | _ :: _, 0, _, h => absurd h (by simp)
  | a :: l, i + 1, x, h => congrArg (a :: ·) (set_oob l i x (by simpa using h))

theorem setCell_pool (s : Sys) (c2 : Nat) (v : Option Nat) : (s.setCell c2 v).pool = s.pool := rfl

theorem updRec_pool (s : Sys) (m : Nat) (f : SnapRecord → SnapRecord) :
    (s.updRec m f).pool = s.pool := rfl

theorem setCell_recAt (s : Sys) (c2 : Nat) (v : Option Nat) (r : Nat) :
    (s.setCell c2 v).recAt r = s.recAt r := rfl

theorem updRec_recycle (s : Sys) (m : Nat) (f : SnapRecord → SnapRecord)
    (hf : ∀ rc, (f rc).recycle = rc.recycle) (r : Nat) :
    ((s.updRec m f).recAt r).recycle = (s.recAt r).recycle := by
  unfold Sys.updRec Sys.recAt
  by_cases h : m = r
  · subst h
    by_cases hlen : m < s.recs.length
    · rw [getD_set_self _ _ _ _ hlen]; exact hf _
    · rw [set_oob _ _ _ (Nat.le_of_not_lt hlen)]
  · rw [getD_set_ne _ _ _ _ _ h]

theorem release_pool (rid2 : Nat) (s2 : Sys) :
    (Release rid2 s2).pool =
      s2.pool ++ (s2.recAt rid2).recycle.map (fun d => (d.addr, d.handGen)) := by
  simp only [Release]
  split
  · split
    · simp only [pool_foldl_poolPut, setCell_pool, updRec_pool, setCell_recAt]
      rw [updRec_recycle]
      · rw [setCell_recAt, updRec_recycle]
        · rw [setCell_recAt]
        · intro rc; rfl
      · intro rc; rfl
    · simp only [pool_foldl_poolPut, setCell_pool, updRec_pool, setCell_recAt]
      rw [updRec_recycle]
      · rw [setCell_recAt]
      · intro rc; rfl
  · split
    · simp only [pool_foldl_poolPut, setCell_pool, updRec_pool, setCell_recAt]
      rw [updRec_recycle]
      · rw [setCell_recAt]
      · intro rc; rfl
    · simp only [pool_foldl_poolPut, setCell_pool, updRec_pool, setCell_recAt]

/-- C6 (amended): what the splice actually maintains.  When a snapshot is
taken at an anchor holding record `r0`, the fresh record is doubly linked to
its predecessor (`new.prev = r0` and `r0.next = new`) and stores the old
successor as `new.next` — but every record other than `r0` (in particular
that successor) is left entirely unchanged, so its `prev` still names `r0`
and double consistency fails off the tail.  `Release`, by contrast, flushes
exactly its own deferred chain to the pool (and, per `c6_counterexample`,
it is `Snapshot`'s missing successor update that breaks the invariant). -/
theorem snapshot_splice_links (t : Immutable) (s : Sys) (c r0 : Nat)
    (hsnap : t.snap = some c) (hcell : s.cell c = some r0)
    (hr0 : r0 < s.recs.length) :
    (Snapshot t s).2.1 = s.recs.length ∧
    ((Snapshot t s).2.2.recAt (Snapshot t s).2.1).prev = some r0 ∧
    ((Snapshot t s).2.2.recAt (Snapshot t s).2.1).next = (s.recAt r0).next ∧
    ((Snapshot t s).2.2.recAt r0).next = some (Snapshot t s).2.1 ∧
    ((Snapshot t s).2.2.recAt r0).prev = (s.recAt r0).prev ∧
    (∀ j, j < s.recs.length → j ≠ r0 → (Snapshot t s).2.2.recAt j = s.recAt j) ∧
    (Snapshot t s).1.snap = some s.cells.length ∧
    (∀ (rid2 : Nat) (s2 : Sys),
        (Release rid2 s2).pool =
          s2.pool ++ (s2.recAt rid2).recycle.map (fun d => (d.addr, d.handGen))) := by
  have hne : s.recs.length ≠ r0 := Nat.ne_of_gt hr0
  refine ⟨?_, ?_, ?_, ?_, ?_, ?_, ?_, ?_⟩
  · simp [Snapshot, hsnap, hcell]
  · simp only [Snapshot, hsnap, hcell, Sys.updRec, Sys.recAt]
    rw [getD_set_ne _ _ _ _ _ (Ne.symm hne)]
    rw [getD_append_length]
  · simp only [Snapshot, hsnap, hcell, Sys.updRec, Sys.recAt]
    rw [getD_set_ne _ _ _ _ _ (Ne.symm hne)]
    rw [getD_append_length]
  · simp only [Snapshot, hsnap, hcell, Sys.updRec, Sys.recAt]
    rw [getD_set_self _ _ _ _ (by simp; omega)]
  · simp only [Snapshot, hsnap, hcell, Sys.updRec, Sys.recAt]
    rw [getD_set_self _ _ _ _ (by simp; omega)]
    rw [getD_append_left _ _ _ _ hr0]
  · intro j hj hjne
    simp only [Snapshot, hsnap, hcell, Sys.updRec, Sys.recAt]
    rw [getD_set_ne _ _ _ _ _ (Ne.symm hjne)]
    rw [getD_append_left _ _ _ _ hj]
  · simp [Snapshot, hsnap, hcell]
  · exact release_pool

theorem snapshot_splice_links_witness :
    c6Pb.1.snap = some 0 ∧ c6S2.2.2.cell 0 = some 0 ∧ 0 < c6S2.2.2.recs.length ∧
      ((Snapshot c6Pb.1 c6S2.2.2).2.1 = c6S2.2.2.recs.length ∧
        ((Snapshot c6Pb.1 c6S2.2.2).2.2.recAt (Snapshot c6Pb.1 c6S2.2.2).2.1).prev = some 0 ∧
        ((Snapshot c6Pb.1 c6S2.2.2).2.2.recAt (Snapshot c6Pb.1 c6S2.2.2).2.1).next =
          (c6S2.2.2.recAt 0).next ∧
        ((Snapshot c6Pb.1 c6S2.2.2).2.2.recAt 0).next = some (Snapshot c6Pb.1 c6S2.2.2).2.1 ∧
        ((Snapshot c6Pb.1 c6S2.2.2).2.2.recAt 0).prev = (c6S2.2.2.recAt 0).prev ∧
        (∀ j, j < c6S2.2.2.recs.length → j ≠ 0 →
          (Snapshot c6Pb.1 c6S2.2.2).2.2.recAt j = c6S2.2.2.recAt j) ∧
        (Snapshot c6Pb.1 c6S2.2.2).1.snap = some c6S2.2.2.cells.length ∧
        (∀ (rid2 : Nat) (s2 : Sys),
          (Release rid2 s2).pool =
            s2.pool ++ (s2.recAt rid2).recycle.map (fun d => (d.addr, d.handGen)))) :=
  ⟨by decide, by decide, by decide,
    snapshot_splice_links c6Pb.1 c6S2.2.2 0 0 (by decide) (by decide) (by decide)⟩

theorem updRec_generation (s : Sys) (m : Nat) (f : SnapRecord → SnapRecord)
    (hf : ∀ rc, (f rc).generation = rc.generation) (r : Nat) :
    ((s.updRec m f).recAt r).generation = (s.recAt r).generation := by
  unfold Sys.updRec Sys.recAt
  by_cases h : m = r
  · subst h
    by_cases hlen : m < s.recs.length
    · rw [getD_set_self _ _ _ _ hlen]; exact hf _
    · rw [set_oob _ _ _ (Nat.le_of_not_lt hlen)]
  · rw [getD_set_ne _ _ _ _ _ h]

theorem recycleOld_gen (snapCnt : Nat) (maxS minS : Option Nat) (s : Sys)
    (nd : Tree) (r : Nat) :
    ((recycleOld snapCnt maxS minS s nd).recAt r).generation = (s.recAt r).generation := by
  cases nd with
  | nil => rfl
  | node a k v p g l rr =>
      simp only [recycleOld]
      by_cases h0 : snapCnt = 0
      · rw [if_pos h0]; rfl
      · rw [if_neg h0]
        by_cases h1 : g > maxGenOf s maxS
        · rw [if_pos h1]; rfl
        · rw [if_neg h1]
          cases minS with
          | none => rfl
          | some m =>
              exact updRec_generation s m
                (fun rc =>
                  { rc with recycle := ⟨a, recycleGeneration, g⟩ :: rc.recycle })
                (fun rc => rfl) r

theorem recycleOld_pool (snapCnt : Nat) (maxS minS : Option Nat) (s : Sys)
    (nd : Tree) :
    (recycleOld snapCnt maxS minS s nd).pool =
      s.pool ++ (immediateEvent snapCnt maxS s nd).toList := by
  cases nd with
  | nil => simp [recycleOld, immediateEvent]
  | node a k v p g l rr =>
      simp only [recycleOld, immediateEvent]
      by_cases h0 : snapCnt = 0
      · rw [if_pos h0, if_pos h0]; simp [Sys.poolPut, Option.toList]
      · rw [if_neg h0, if_neg h0]
        by_cases h1 : g > maxGenOf s maxS
        · rw [if_pos h1, if_pos h1]; simp [Sys.poolPut, Option.toList]
        · rw [if_neg h1, if_neg h1]
          cases minS with
          | none => simp
          | some m => simp [Sys.updRec]

theorem immediateEvent_congr (snapCnt : Nat) (maxS : Option Nat) (s s2 : Sys)
    (hg : ∀ r, (s2.recAt r).generation = (s.recAt r).generation) (nd : Tree) :
    immediateEvent snapCnt maxS s2 nd = immediateEvent snapCnt maxS s nd := by
  cases nd with
  | nil => rfl
  | node a k v p g l r =>
      simp only [immediateEvent]
      have hmg : maxGenOf s2 maxS = maxGenOf s maxS := by
        cases maxS with
        | none => rfl
        | some m => exact hg m
      rw [hmg]

theorem filterMap_congr_fn {α β : Type} (f g : α → Option β) (h : ∀ x, f x = g x) :
    ∀ l : List α, l.filterMap f = l.filterMap g
  | [] => rfl
  | a :: l => by
      rw [List.filterMap_cons, List.filterMap_cons, h a, filterMap_congr_fn f g h l]

theorem recycleOld_foldl (snapCnt : Nat) (maxS minS : Option Nat) :
    ∀ (olds : List Tree) (s : Sys),
      (∀ r, ((olds.foldl (recycleOld snapCnt maxS minS) s).recAt r).generation =
          (s.recAt r).generation) ∧
      (olds.foldl (recycleOld snapCnt maxS minS) s).pool =
        s.pool ++ olds.filterMap (immediateEvent snapCnt maxS s) := by
  intro olds
  induction olds with
  | nil => intro s; exact ⟨fun r => rfl, by simp⟩
  | cons nd rest ih =>
      intro s
      have hstep_gen := recycleOld_gen snapCnt maxS minS s nd
      have hstep_pool := recycleOld_pool snapCnt maxS minS s nd
      obtain ⟨ihg, ihp⟩ := ih (recycleOld snapCnt maxS minS s nd)
      constructor
      · intro r; rw [List.foldl_cons, ihg r, hstep_gen r]
      · rw [List.foldl_cons, ihp, hstep_pool]
        rw [filterMap_congr_fn _ _
          (immediateEvent_congr snapCnt maxS s _ hstep_gen) rest]
        rw [List.filterMap_cons]
        cases h : immediateEvent snapCnt maxS s nd <;> simp [h]

theorem snapWalk_eq_foldl (s : Sys) (excluded : Option Nat) (useNext : Bool) :
    ∀ (fuel : Nat) (o : Option Nat) (acc : Nat × Option Nat × Option Nat),
      snapWalk s excluded useNext o fuel acc =
        (snapChain s useNext o fuel).foldl
          (fun acc2 h => if some h = excluded then acc2 else tallyRec s h acc2) acc := by
  intro fuel
  induction fuel with
  | zero => intro o acc; cases o <;> rfl
  | succ n ih =>
      intro o acc
      cases o with
      | none => rfl
      | some h =>
          simp only [snapWalk, snapChain, List.foldl_cons]
          exact ih _ _

theorem tally_max_step (s : Sys) (h : Nat) (acc : Nat × Option Nat × Option Nat) :
    ∃ m2, (tallyRec s h acc).2.1 = some m2 ∧
      (s.recAt h).generation ≤ (s.recAt m2).generation ∧
      (∀ m, acc.2.1 = some m → (s.recAt m).generation ≤ (s.recAt m2).generation) := by
  obtain ⟨c, maxS, minS⟩ := acc
  unfold tallyRec
  cases maxS with
  | none => exact ⟨h, rfl, Int.le_refl _, by intro m hm; cases hm⟩
  | some m =>
      by_cases hc : (s.recAt m).generation < (s.recAt h).generation
      · refine ⟨h, by simp [hc], Int.le_refl _, ?_⟩
        intro m2 hm2
        injection hm2 with e
        subst e
        exact Int.le_of_lt hc
      · refine ⟨m, by simp [hc], Int.not_lt.mp hc, ?_⟩
        intro m2 hm2
        injection hm2 with e
        subst e
        exact Int.le_refl _

theorem tally_foldl_max (s : Sys) (exc : Option Nat) :
    ∀ (L : List Nat) (acc : Nat × Option Nat × Option Nat),
      (∀ m, acc.2.1 = some m →
        (s.recAt m).generation ≤
          maxGenOf s ((L.foldl
            (fun a2 h => if some h = exc then a2 else tallyRec s h a2) acc).2.1)) ∧
      (∀ h ∈ L, some h ≠ exc →
        (s.recAt h).generation ≤
          maxGenOf s ((L.foldl
            (fun a2 h => if some h = exc then a2 else tallyRec s h a2) acc).2.1)) := by
  intro L
  induction L with
  | nil =>
      intro acc
      refine ⟨?_, by intro h hh; cases hh⟩
      intro m hm
      simp only [List.foldl_nil]
      simp [maxGenOf, hm]
  | cons h0 Lr ih =>
      intro acc
      by_cases hexc : some h0 = exc
      · simp only [List.foldl_cons, if_pos hexc]
        obtain ⟨ih1, ih2⟩ := ih acc
        refine ⟨ih1, ?_⟩
        intro h hh hne
        rcases List.mem_cons.mp hh with rfl | hh
        · exact absurd hexc hne
        · exact ih2 h hh hne
      · simp only [List.foldl_cons, if_neg hexc]
        obtain ⟨ih1, ih2⟩ := ih (tallyRec s h0 acc)
        obtain ⟨m2, hm2, hh0, hacc⟩ := tally_max_step s h0 acc
        refine ⟨?_, ?_⟩
        · intro m hm
          exact le_trans (hacc m hm) (ih1 m2 hm2)
        · intro h hh hne
          rcases List.mem_cons.mp hh with rfl | hh
          · exact le_trans hh0 (ih1 m2 hm2)
          · exact ih2 h hh hne

theorem counted_le_max (t : Immutable) (s : Sys) (exc : Option Nat) :
    ∀ h ∈ countedRecs t s, some h ≠ exc →
      (s.recAt h).generation ≤ maxGenOf s ((snapCountA t exc s).2.1) := by
  intro h hh hne
  unfold countedRecs at hh
  cases hsnap : t.snap with
  | none => simp [hsnap] at hh
  | some c =>
      cases hcell : s.cell c with
      | none => simp [hsnap, hcell] at hh
      | some r0 =>
          simp only [hsnap, hcell] at hh
          have heq : snapCountA t exc s =
              snapWalk s exc true ((s.recAt r0).next) (s.recs.length + 1)
                (snapWalk s exc false (some r0) (s.recs.length + 1) (0, none, none)) := by
            simp [snapCountA, hsnap, hcell]
          rw [heq, snapWalk_eq_foldl, snapWalk_eq_foldl, ← List.foldl_append]
          exact (tally_foldl_max s exc _ _).2 h hh hne

/-- C1 (amended): the recycle policy as implemented.  `PutM`/`DeleteM`
append to the pool log exactly the abandoned nodes (popped deepest-first)
whose decision is immediate — census 0 or stamp strictly above
`maxSnap.generation` — and `maxSnap` dominates the generation of every
record the census walks (third conjunct); every other abandoned node is
deferred, and `Release` pools exactly the deferred chain of the record
being released (fourth conjunct), regardless of which other records are
still live — the behaviour `c1_counterexample` exhibits against the claim
as stated. -/
theorem putm_recycle_policy :
    (∀ (t : Immutable) (key : Bytes) (value : Option Bytes) (prio : Nat)
        (exc : Option Nat) (s : Sys),
        (PutM t key value prio exc s).2.pool =
          s.pool ++ ((put t key value prio 1 s.ctr).2.1.reverse.filterMap
            (immediateEvent
              (snapCountA t none { s with ctr := (put t key value prio 1 s.ctr).2.2 }).1
              (snapCountA t none { s with ctr := (put t key value prio 1 s.ctr).2.2 }).2.1
              { s with ctr := (put t key value prio 1 s.ctr).2.2 }))) ∧
    (∀ (t : Immutable) (key : Bytes) (exc : Option Nat) (s : Sys),
        (DeleteM t key exc s).2.pool =
          s.pool ++ ((del t key 1 s.ctr).2.1.reverse.filterMap
            (immediateEvent
              (snapCountA t none { s with ctr := (del t key 1 s.ctr).2.2 }).1
              (snapCountA t none { s with ctr := (del t key 1 s.ctr).2.2 }).2.1
              { s with ctr := (del t key 1 s.ctr).2.2 }))) ∧
    (∀ (t : Immutable) (s : Sys) (exc : Option Nat) (h : Nat),
        h ∈ countedRecs t s → some h ≠ exc →
        (s.recAt h).generation ≤ maxGenOf s ((snapCountA t exc s).2.1)) ∧
    (∀ (rid : Nat) (s : Sys),
        (Release rid s).pool =
          s.pool ++ (s.recAt rid).recycle.map (fun d => (d.addr, d.handGen))) := by
  refine ⟨?_, ?_, ?_, release_pool⟩
  · intro t key value prio exc s
    unfold PutM
    rcases hput : put t key value prio 1 s.ctr with ⟨tp, old, ctr2⟩
    simp only [hput]
    rcases hsc : snapCountA t none { s with ctr := ctr2 } with ⟨snapCnt, maxS, minS⟩
    simp only [hsc]
    exact (recycleOld_foldl snapCnt maxS minS old.reverse { s with ctr := ctr2 }).2
  · intro t key exc s
    unfold DeleteM
    rcases hdel : del t key 1 s.ctr with ⟨tp, old, ctr2⟩
    simp only [hdel]
    rcases hsc : snapCountA t none { s with ctr := ctr2 } with ⟨snapCnt, maxS, minS⟩
    simp only [hsc]
    exact (recycleOld_foldl snapCnt maxS minS old.reverse { s with ctr := ctr2 }).2
  · exact fun t s exc h hh hne => counted_le_max t s exc h hh hne

theorem putm_recycle_policy_witness :
    ((0 : Nat) ∈ countedRecs cxS2.1 cxS2.2.2 ∧ some (0 : Nat) ≠ (none : Option Nat)) ∧
      (cxS2.2.2.recAt 0).generation ≤
        maxGenOf cxS2.2.2 ((snapCountA cxS2.1 none cxS2.2.2).2.1) :=
  ⟨⟨by decide, by decide⟩,
    putm_recycle_policy.2.2.1 cxS2.1 cxS2.2.2 none 0 (by decide) (by decide)⟩
